import Mathlib

/-!
# splat: applying container-image layers to a directory tree

A shallow embedding of `splat.go` (`doSplat`, `unpackLayer`, `fetchImage`) together with
the library behaviour the program relies on: `path/filepath` on Unix, the regular
expression `tarFile`, and the part of package `os` the layer applier calls.

Go strings are byte sequences; they are modelled as lists of characters, file contents
as lists of bytes.
-/

namespace Splat

/-- A Go `string`. -/
abbrev GoString := List Char

/-- A Go `[]byte`. -/
abbrev Bytes := List UInt8

/-! ## `path/filepath` (Unix) -/

/-- Split a path at every separator `/` (like `strings.Split(path, "/")`). -/
def splitSep : GoString → List GoString
  | [] => [[]]
  | c :: cs =>
    if c = '/' then [] :: splitSep cs
    else
      match splitSep cs with
      | [] => [[c]]
      | h :: t => (c :: h) :: t

/-- Join path elements with a single `/` between them (like `strings.Join(elems, "/")`). -/
def joinSep : List GoString → GoString
  | [] => []
  | [e] => e
  | e :: f :: rest => e ++ '/' :: joinSep (f :: rest)

/-- One step of `filepath.Clean` over the elements of a path; `rstack` is the cleaned
path so far, innermost element first. Empty elements and `.` are dropped; `..` removes
the element before it, is dropped at the root of a rooted path, and is kept when it
begins a relative path. -/
def cleanStep (rooted : Bool) (rstack : List GoString) (c : GoString) : List GoString :=
  if c = [] ∨ c = ['.'] then rstack
  else if c = ['.', '.'] then
    match rstack with
    | [] => if rooted then [] else [c]
    | top :: rest => if top = ['.', '.'] then c :: rstack else rest
  else c :: rstack

/-- Whether a path begins with the separator. -/
def isRooted (path : GoString) : Bool :=
  match path with
  | c :: _ => c = '/'
  | [] => false

/-- Go's `filepath.Clean`: the shortest path name equivalent to `path` by purely lexical
processing. The result ends in a slash only if it is the root, and the empty result is
`.`. -/
def Clean (path : GoString) : GoString :=
  let body := joinSep ((splitSep path).foldl (cleanStep (isRooted path)) []).reverse
  if isRooted path then '/' :: body
  else if body = [] then ['.'] else body

/-- Go's `filepath.Join`: leading empty elements are ignored, the rest is joined with
the separator and cleaned; the result is empty when every element is empty. -/
def Join : List GoString → GoString
  | [] => []
  | e :: rest => if e = [] then Join rest else Clean (joinSep (e :: rest))

/-- Remove the trailing separators of a path. -/
def stripTrailingSep (path : GoString) : GoString :=
  (path.reverse.dropWhile (fun c => c = '/')).reverse

/-- The part of a path after its last separator. -/
def lastElement (path : GoString) : GoString :=
  (path.reverse.takeWhile (fun c => c ≠ '/')).reverse

/-- The part of a path up to and including its last separator. -/
def upToLastSep (path : GoString) : GoString :=
  (path.reverse.dropWhile (fun c => c ≠ '/')).reverse

/-- Go's `filepath.Base`: the last element of the path, after removing trailing
separators; `.` for the empty path and `/` for a path of separators only. -/
def Base (path : GoString) : GoString :=
  if path = [] then ['.']
  else
    let last := lastElement (stripTrailingSep path)
    if last = [] then ['/'] else last

/-- Go's `filepath.Dir`: all but the last element of the path, cleaned. -/
def Dir (path : GoString) : GoString :=
  Clean (upToLastSep path)

/-- Go's `strings.HasPrefix`. -/
def HasPrefix (s pre : GoString) : Bool :=
  pre.isPrefixOf s

/-! ## The regular expression `tarFile` -/

/-- The pieces of regular-expression syntax that `tarFile` uses: the start-of-text
anchor `^`, a literal character, `.` (any character but a newline) and `.*`. -/
inductive Atom where
  | bol
  | lit (c : Char)
  | any
  | anyStar
  deriving DecidableEq, Repr

/-- Try the continuation `k` after zero or more characters other than a newline. -/
def afterAnyStar (k : Bool → GoString → Bool) : Bool → GoString → Bool
  | atStart, [] => k atStart []
  | atStart, c :: s => k atStart (c :: s) || (c != '\n' && afterAnyStar k false s)

/-- Whether the atoms match a prefix of the text; `atStart` says whether the text
begins at the start of the whole input. -/
def matchHere : List Atom → Bool → GoString → Bool
  | [], _, _ => true
  | Atom.bol :: r, atStart, s => atStart && matchHere r atStart s
  | Atom.lit x :: r, _, s =>
    match s with
    | [] => false
    | c :: s' => c == x && matchHere r false s'
  | Atom.any :: r, _, s =>
    match s with
    | [] => false
    | c :: s' => c != '\n' && matchHere r false s'
  | Atom.anyStar :: r, atStart, s => afterAnyStar (matchHere r) atStart s

/-- Whether the atoms match somewhere in the text at or after the current position. -/
def searchFrom (re : List Atom) : Bool → GoString → Bool
  | atStart, [] => matchHere re atStart []
  | atStart, c :: s => matchHere re atStart (c :: s) || searchFrom re false s

/-- Go's `Regexp.MatchString`: whether the text contains any match of the expression. -/
def MatchString (re : List Atom) (s : GoString) : Bool :=
  searchFrom re true s

/-- The package variable `tarFile = regexp.MustCompile("^.*.tar")`. -/
def tarFile : List Atom :=
  [Atom.bol, Atom.anyStar, Atom.any, Atom.lit 't', Atom.lit 'a', Atom.lit 'r']

/-! ## Errors -/

/-- Go `error` values: the usage errors built with `fmt.Errorf`, the system-call errors
of package `os`, and the errors reported by the collaborators (Docker client, tar
reader, JSON decoder). -/
inductive GoError where
  | errorf (msg : String)
  | ENOENT
  | ENOTDIR
  | EISDIR
  | ENOTEMPTY
  | EEXIST
  | EBUSY
  | EACCES
  | EINVAL
  | other (msg : String)
  deriving DecidableEq, Repr

/-! ## The destination file system (package `os`)

The tree holds directories and regular files only: no symbolic links or devices. A
path is the list of its elements from the root. A regular file carries its permission
bits and which of the three permission triples applies to the process; opening it for
reading and writing is checked against them. Directories carry no permission bits:
the process is taken to have search and write access to every directory, so the
constant mode of `os.MkdirAll` is not kept. Path names are taken without a trailing
separator, as `filepath.Join` returns them. -/

/-- A resolved, absolute path: its elements from the root; `[]` is the root. -/
abbrev Path := List GoString

/-- Which permission triple of a file applies to the process: it owns the file, is in
the file's group, or neither. -/
inductive Who where
  | owner
  | group
  | other
  deriving DecidableEq, Repr

/-- What a path holds: a regular file with its bytes, permission bits and the triple
that applies to the process, or a directory. -/
inductive Node where
  | file (data : Bytes) (perm : Nat) (who : Who)
  | dir
  deriving DecidableEq, Repr

/-- Go's `FileInfo.IsDir`. -/
def Node.IsDir : Node → Bool
  | Node.dir => true
  | Node.file _ _ _ => false

/-- The process as the file system sees it: its working directory, whether it may
override permission checks (effective user 0), and its file mode creation mask. -/
structure Process where
  cwd : Path
  privileged : Bool
  umask : Nat
  deriving DecidableEq, Repr

/-- The state of the file system: the process and the existing paths. The first
binding of a path is the one in force; the root always exists. -/
structure FileSystem where
  proc : Process
  entries : List (Path × Node)
  deriving Repr

/-- First binding of a path in a list of bindings. -/
def lookupNode : List (Path × Node) → Path → Option Node
  | [], _ => none
  | (k, v) :: rest, p => if k = p then some v else lookupNode rest p

/-- What the tree holds at a resolved path, if anything. -/
def FileSystem.get (fs : FileSystem) (p : Path) : Option Node :=
  if p = [] then some Node.dir else lookupNode fs.entries p

/-- Bind a path to a node, shadowing any older binding. -/
def FileSystem.set (fs : FileSystem) (p : Path) (n : Node) : FileSystem :=
  FileSystem.mk fs.proc ((p, n) :: fs.entries)

/-- The tree without the bindings of the paths that `gone` selects. -/
def FileSystem.without (fs : FileSystem) (gone : Path → Bool) : FileSystem :=
  FileSystem.mk fs.proc (fs.entries.filter (fun kv => !gone kv.1))

/-- Follow the elements of a path name from a starting directory: empty elements and
`.` stay, `..` goes to the parent (the root is its own parent). -/
def walk : Path → List GoString → Path
  | base, [] => base
  | base, c :: cs =>
    if c = [] ∨ c = ['.'] then walk base cs
    else if c = ['.', '.'] then walk base.dropLast cs
    else walk (base ++ [c]) cs

/-- The resolved path a path name denotes: from the root when it begins with `/`, from
the working directory otherwise. The empty name denotes nothing. -/
def FileSystem.resolve (fs : FileSystem) (name : GoString) : Option Path :=
  if name = [] then none
  else some (walk (if isRooted name then [] else fs.proc.cwd) (splitSep name))

/-- The error of walking down to a path, if any: going from `pre` through the elements
`rest`, everything above the last element must be a directory; the first one that is
missing gives `ENOENT`, the first one that is a regular file gives `ENOTDIR`. -/
def FileSystem.aboveErr (fs : FileSystem) : Path → List GoString → Option GoError
  | _, [] => none
  | pre, c :: rest =>
    match fs.get pre with
    | none => some GoError.ENOENT
    | some (Node.file _ _ _) => some GoError.ENOTDIR
    | some Node.dir => FileSystem.aboveErr fs (pre ++ [c]) rest

/-- Path lookup at a resolved path: the node there, or the error of the walk. -/
def FileSystem.lookup (fs : FileSystem) (p : Path) : Except GoError Node :=
  match fs.aboveErr [] p with
  | some err => Except.error err
  | none =>
    match fs.get p with
    | none => Except.error GoError.ENOENT
    | some n => Except.ok n

/-- Go's `os.Stat`: the node at the path, or an error when it cannot be reached. -/
def Stat (fs : FileSystem) (name : GoString) : Except GoError Node :=
  match fs.resolve name with
  | none => Except.error GoError.ENOENT
  | some p => fs.lookup p

/-- Whether permission bits grant reading and writing in the given triple. -/
def permits (perm : Nat) (who : Who) : Bool :=
  match who with
  | Who.owner => perm.testBit 8 && perm.testBit 7
  | Who.group => perm.testBit 5 && perm.testBit 4
  | Who.other => perm.testBit 2 && perm.testBit 1

/-- Whether the process may open a file with these permission bits for reading and
writing: a privileged process always may. -/
def Process.mayReadWrite (proc : Process) (perm : Nat) (who : Who) : Bool :=
  proc.privileged || permits perm who

/-- The permission bits a file gets when it is created with `os.FileMode(mode)`: the
low nine bits of the mode without the bits of the mask. -/
def createPerm (umask : Nat) (mode : Int) : Nat :=
  (mode % 512).toNat &&& (511 ^^^ (umask % 512))

/-- Whether some existing path lies strictly below `p`. -/
def FileSystem.hasChildren (fs : FileSystem) (p : Path) : Bool :=
  fs.entries.any (fun kv => p.isPrefixOf kv.1 && kv.1 != p && (fs.get kv.1).isSome)

/-- The last element of a path name, trailing separators aside. -/
def finalElement (name : GoString) : GoString :=
  lastElement (stripTrailingSep name)

/-- Go's `endsWithDot`: the name is `.` or ends in `/.`. -/
def endsWithDot (name : GoString) : Bool :=
  name = ['.'] ||
  match name.reverse with
  | c :: d :: _ => c = '.' && d = '/'
  | _ => false

/-- Go's `os.Remove`: removes the named file or empty directory. A directory named
through a final `.` or `..` cannot be removed. -/
def Remove (fs : FileSystem) (name : GoString) : Option GoError × FileSystem :=
  match fs.resolve name with
  | none => (some GoError.ENOENT, fs)
  | some p =>
    match fs.lookup p with
    | Except.error err => (some err, fs)
    | Except.ok (Node.file _ _ _) => (none, fs.without (fun k => k = p))
    | Except.ok Node.dir =>
      if p = [] then (some GoError.EBUSY, fs)
      else if finalElement name = ['.'] then (some GoError.EINVAL, fs)
      else if finalElement name = ['.', '.'] then (some GoError.ENOTEMPTY, fs)
      else if fs.hasChildren p then (some GoError.ENOTEMPTY, fs)
      else (none, fs.without (fun k => k = p))

/-- Go's `os.RemoveAll`: removes the path and everything below it; a path that does
not exist is not an error. A name that ends in a dot is refused with `EINVAL` and
nothing is removed. The root, and a directory named through a final `.` or `..`,
is emptied but cannot be removed itself, which is reported as an error. -/
def RemoveAll (fs : FileSystem) (name : GoString) : Option GoError × FileSystem :=
  if name = [] then (none, fs)
  else if endsWithDot name then (some GoError.EINVAL, fs)
  else
    match fs.resolve name with
    | none => (none, fs)
    | some p =>
      match fs.lookup p with
      | Except.error err => (if err = GoError.ENOENT then none else some err, fs)
      | Except.ok (Node.file _ _ _) => (none, fs.without (fun k => k = p))
      | Except.ok Node.dir =>
        if p = [] then
          (some GoError.EBUSY, fs.without (fun k => p.isPrefixOf k && k != p))
        else if finalElement name = ['.'] then
          (some GoError.EINVAL, fs.without (fun k => p.isPrefixOf k && k != p))
        else if finalElement name = ['.', '.'] then
          (some GoError.ENOTEMPTY, fs.without (fun k => p.isPrefixOf k && k != p))
        else (none, fs.without (fun k => p.isPrefixOf k))

/-- Go's `os.Mkdir` at a resolved path: everything above must be a directory and the
path itself must not exist. -/
def mkdirAt (fs : FileSystem) (p : Path) : Option GoError × FileSystem :=
  match fs.aboveErr [] p with
  | some err => (some err, fs)
  | none =>
    match fs.get p with
    | some _ => (some GoError.EEXIST, fs)
    | none => (none, fs.set p Node.dir)

/-- Go's `os.MkdirAll` at a resolved path given innermost element first: a directory
that can be reached is success, a regular file there is an error, and otherwise the
parent is made first and then the directory itself; when making the directory fails
although it is there by now, that is success too. -/
def mkdirAllRev (fs : FileSystem) : List GoString → Option GoError × FileSystem
  | [] => (none, fs)
  | c :: up =>
    match fs.lookup (c :: up).reverse with
    | Except.ok Node.dir => (none, fs)
    | Except.ok (Node.file _ _ _) => (some GoError.ENOTDIR, fs)
    | Except.error _ =>
      match mkdirAllRev fs up with
      | (some e, fs1) => (some e, fs1)
      | (none, fs1) =>
        match mkdirAt fs1 (c :: up).reverse with
        | (none, fs2) => (none, fs2)
        | (some e, fs2) =>
          match fs2.lookup (c :: up).reverse with
          | Except.ok Node.dir => (none, fs2)
          | _ => (some e, fs2)

/-- Go's `os.MkdirAll`: creates the named directory along with any necessary
parents. The library recurses over the path name; here the recursion follows the
resolved path up to the root, which does the same wherever the working directory
exists. -/
def MkdirAll (fs : FileSystem) (name : GoString) : Option GoError × FileSystem :=
  match fs.resolve name with
  | none => (some GoError.ENOENT, fs)
  | some p => mkdirAllRev fs p.reverse

/-- The flags of `os.OpenFile` that matter to the outcome. -/
inductive OpenFlag where
  | O_RDWR
  | O_CREATE
  | O_TRUNC
  deriving DecidableEq, Repr

/-- An open file: the path it was opened at and the current offset. -/
structure File where
  path : Path
  offset : Nat
  deriving Repr

/-- Go's `os.OpenFile` for reading and writing, with the mode `perm` for a file it
creates: everything above the path must be a directory; a directory cannot be opened
for writing; an existing file is opened at offset 0 when its permission bits allow the
process to read and write it, emptied first only under `O_TRUNC`; a missing file is
created empty under `O_CREATE`, owned by the process, with the bits of `perm` that the
mask leaves. -/
def OpenFile (fs : FileSystem) (name : GoString) (flags : List OpenFlag) (perm : Int) :
    Except GoError (FileSystem × File) :=
  match fs.resolve name with
  | none => Except.error GoError.ENOENT
  | some p =>
    match fs.aboveErr [] p with
    | some err => Except.error err
    | none =>
      match fs.get p with
      | some Node.dir => Except.error GoError.EISDIR
      | some (Node.file _ fperm who) =>
        if fs.proc.mayReadWrite fperm who then
          if OpenFlag.O_TRUNC ∈ flags then
            Except.ok (fs.set p (Node.file [] fperm who), File.mk p 0)
          else Except.ok (fs, File.mk p 0)
        else Except.error GoError.EACCES
      | none =>
        if OpenFlag.O_CREATE ∈ flags then
          Except.ok (fs.set p (Node.file [] (createPerm fs.proc.umask perm) Who.owner),
            File.mk p 0)
        else Except.error GoError.ENOENT

/-- Bytes of a file after writing `data` at `offset`: the bytes before the offset are
kept (padded with zeros when the file is shorter), then the data, then whatever the
old content had beyond the written range. -/
def writeAt (old : Bytes) (offset : Nat) (data : Bytes) : Bytes :=
  old.take offset ++ List.replicate (offset - old.length) 0 ++ data
    ++ old.drop (offset + data.length)

/-- Go's `File.Write`: writes the data at the current offset and advances it. -/
def File.Write (fs : FileSystem) (f : File) (data : Bytes) : FileSystem × File :=
  match fs.get f.path with
  | some (Node.file old perm who) =>
    (fs.set f.path (Node.file (writeAt old f.offset data) perm who),
      File.mk f.path (f.offset + data.length))
  | _ => (fs, f)

/-! ## Tar archives (package `archive/tar`) -/

/-- The fields of a tar header the program reads. -/
structure Header where
  Name : GoString
  Typeflag : Char
  Mode : Int
  deriving Repr

/-- The type flag `tar.TypeReg`. -/
def TypeReg : Char := '0'

/-- The type flag `tar.TypeDir`. -/
def TypeDir : Char := '5'

/-- One entry as the tar reader presents it: the header returned by `Next`, the bytes
that reading the entry's content yields, and the error that ends the reading when the
content cannot be read to its end (`none`: the content is read completely). -/
structure TarEntry where
  hdr : Header
  content : Bytes
  readErr : Option GoError
  deriving Repr

/-- What a tar reader yields over a byte source: the entries in order, then either the
end of the archive (`none`) or the error `Next` returns. -/
structure TarStream where
  entries : List TarEntry
  err : Option GoError
  deriving Repr

/-! ## `unpackLayer` -/

/-- The path the whiteout case of `unpackLayer` computes (its inner `outFile`), for an
entry with the given name. -/
def whiteoutPath (name : GoString) : GoString :=
  Join ["out".toList, Dir name, (Base name).drop 4]

/-- The body of the loop of `unpackLayer` for one entry: the error that makes
`unpackLayer` return (`none`: the loop goes on) and the file system afterwards. -/
def applyEntry (outDir : GoString) (e : TarEntry) (fs : FileSystem) :
    Option GoError × FileSystem :=
  let base := Base e.hdr.Name
  let outFile := Join [outDir, e.hdr.Name]
  if HasPrefix base ".wh.".toList then
    let outFile := whiteoutPath e.hdr.Name
    match Stat fs outFile with
    | Except.error _ => (none, fs)
    | Except.ok fileInfo =>
      if fileInfo.IsDir then RemoveAll fs outFile else Remove fs outFile
  else if e.hdr.Typeflag = TypeDir then
    match Stat fs outFile with
    | Except.ok _ => (none, fs)
    | Except.error _ => MkdirAll fs outFile
  else if e.hdr.Typeflag = TypeReg then
    match OpenFile fs outFile [OpenFlag.O_CREATE, OpenFlag.O_RDWR] e.hdr.Mode with
    | Except.error err => (some err, fs)
    | Except.ok (fs1, f) => (e.readErr, (File.Write fs1 f e.content).1)
  else (none, fs)

/-- The loop of `unpackLayer` over the entries of the layer: it stops at the first
entry that fails, keeping what was written so far. -/
def applyEntries (outDir : GoString) : List TarEntry → FileSystem → Option GoError × FileSystem
  | [], fs => (none, fs)
  | e :: es, fs =>
    match applyEntry outDir e fs with
    | (none, fs1) => applyEntries outDir es fs1
    | (some err, fs1) => (some err, fs1)

/-- The function `unpackLayer`: reads the layer's bytes as a tar archive (`untar` is the
tar reader) and applies every entry to the file system; returns the error, if any, and
the file system afterwards. -/
def unpackLayer (untar : Bytes → TarStream) (tarBytes : Bytes) (outDir : GoString)
    (fs : FileSystem) : Option GoError × FileSystem :=
  match applyEntries outDir (untar tarBytes).entries fs with
  | (none, fs1) => ((untar tarBytes).err, fs1)
  | (some err, fs1) => (some err, fs1)

/-! ## `fetchImage` and `doSplat` -/

/-- The type `Manifest`. -/
structure Manifest where
  Layers : List GoString
  deriving DecidableEq, Repr

/-- The Docker engine as the program sees it: whether a client can be made from the
environment, what `ImageSave` answers before any pull, what `ImagePull` answers, and
what `ImageSave` answers once the pull has succeeded. -/
structure Docker where
  clientErr : Option GoError
  save : GoString → Except GoError TarStream
  pull : GoString → Option GoError
  saveAfterPull : GoString → Except GoError TarStream

/-- A request sent to the Docker engine. -/
inductive DockerCall where
  | NegotiateAPIVersion
  | ImageSave (ref : GoString)
  | ImagePull (ref : GoString)
  deriving DecidableEq, Repr

/-- The function `fetchImage`: saves the image, pulling it first when the first save
fails; returns the stream or the error, and the requests it sent. -/
def fetchImage (docker : Docker) (ref : GoString) :
    Except GoError TarStream × List DockerCall :=
  match docker.save ref with
  | Except.ok save => (Except.ok save, [DockerCall.ImageSave ref])
  | Except.error _ =>
    match docker.pull ref with
    | some err => (Except.error err, [DockerCall.ImageSave ref, DockerCall.ImagePull ref])
    | none =>
      (docker.saveAfterPull ref,
        [DockerCall.ImageSave ref, DockerCall.ImagePull ref, DockerCall.ImageSave ref])

/-- The map `layerTars`: the newest binding of a name first. -/
abbrev LayerTars := List (GoString × Bytes)

/-- Lookup in `layerTars`: the newest binding of the name, if any. -/
def LayerTars.find : LayerTars → GoString → Option Bytes
  | [], _ => none
  | (k, v) :: rest, name => if k = name then some v else LayerTars.find rest name

/-- The first loop of `doSplat` over the entries of the outer archive: the manifest
entry is decoded into `manifests` (`unmarshal` is `json.Unmarshal` on the current
value), an entry whose name matches `tarFile` is stored in `layerTars`, any other entry
is skipped. -/
def collect (unmarshal : Bytes → List Manifest → Except GoError (List Manifest))
    (tailErr : Option GoError) :
    List TarEntry → List Manifest → LayerTars → Except GoError (List Manifest × LayerTars)
  | [], manifests, layerTars =>
    match tailErr with
    | none => Except.ok (manifests, layerTars)
    | some err => Except.error err
  | e :: es, manifests, layerTars =>
    if e.hdr.Name = "manifest.json".toList then
      match e.readErr with
      | some err => Except.error err
      | none =>
        match unmarshal e.content manifests with
        | Except.error err => Except.error err
        | Except.ok manifests1 => collect unmarshal tailErr es manifests1 layerTars
    else if MatchString tarFile e.hdr.Name then
      match e.readErr with
      | some err => Except.error err
      | none => collect unmarshal tailErr es manifests ((e.hdr.Name, e.content) :: layerTars)
    else collect unmarshal tailErr es manifests layerTars

/-- How a call ends: it returns nil, returns an error, or panics. -/
inductive Outcome where
  | nil
  | error (err : GoError)
  | panic (msg : String)
  deriving DecidableEq, Repr

/-- The effects of the second loop of `doSplat`: how it ended, the calls of
`unpackLayer` it made (layer bytes and destination) in order, and the file system
afterwards. -/
structure Applied where
  outcome : Outcome
  calls : List (Bytes × GoString)
  fs : FileSystem

/-- The inner loop of the second loop of `doSplat`, over the layers of one manifest. -/
def applyLayers (untar : Bytes → TarStream) (layerTars : LayerTars) (outDir : GoString) :
    List GoString → FileSystem → Applied
  | [], fs => Applied.mk Outcome.nil [] fs
  | layer :: rest, fs =>
    match layerTars.find layer with
    | none => Applied.mk (Outcome.panic "wtf") [] fs
    | some tarBytes =>
      match unpackLayer untar tarBytes outDir fs with
      | (some err, fs1) => Applied.mk (Outcome.error err) [(tarBytes, outDir)] fs1
      | (none, fs1) =>
        let r := applyLayers untar layerTars outDir rest fs1
        Applied.mk r.outcome ((tarBytes, outDir) :: r.calls) r.fs

/-- The second loop of `doSplat`, over the manifests. -/
def applyManifests (untar : Bytes → TarStream) (layerTars : LayerTars) (outDir : GoString) :
    List Manifest → FileSystem → Applied
  | [], fs => Applied.mk Outcome.nil [] fs
  | manifest :: rest, fs =>
    let r := applyLayers untar layerTars outDir manifest.Layers fs
    match r.outcome with
    | Outcome.nil =>
      let r1 := applyManifests untar layerTars outDir rest r.fs
      Applied.mk r1.outcome (r.calls ++ r1.calls) r1.fs
    | _ => r

/-- The effects of one run of `doSplat`: how it ended, the requests sent to the Docker
engine, the calls of `unpackLayer`, and the file system afterwards. -/
structure Run where
  outcome : Outcome
  docker : List DockerCall
  calls : List (Bytes × GoString)
  fs : FileSystem

/-- The function `doSplat` on the positional arguments `args`. `Args().Get(n)` is the
empty string when there is no such argument. -/
def doSplat (docker : Docker) (untar : Bytes → TarStream)
    (unmarshal : Bytes → List Manifest → Except GoError (List Manifest))
    (args : List GoString) (fs : FileSystem) : Run :=
  match docker.clientErr with
  | some err => Run.mk (Outcome.error err) [] [] fs
  | none =>
    if args.length = 0 then
      Run.mk (Outcome.error (GoError.errorf "No args specfied, see --help for usage"))
        [DockerCall.NegotiateAPIVersion] [] fs
    else if args.length > 2 then
      Run.mk (Outcome.error (GoError.errorf "Too many args, see --help for usage"))
        [DockerCall.NegotiateAPIVersion] [] fs
    else
      let ourImage := args.getD 0 []
      let outDir := args.getD 1 []
      match fetchImage docker ourImage with
      | (Except.error err, sent) =>
        Run.mk (Outcome.error err) (DockerCall.NegotiateAPIVersion :: sent) [] fs
      | (Except.ok save, sent) =>
        match collect unmarshal save.err save.entries [] [] with
        | Except.error err =>
          Run.mk (Outcome.error err) (DockerCall.NegotiateAPIVersion :: sent) [] fs
        | Except.ok (manifests, layerTars) =>
          let r := applyManifests untar layerTars outDir manifests fs
          Run.mk r.outcome (DockerCall.NegotiateAPIVersion :: sent) r.calls r.fs

/-- The layer identifiers of the manifests in manifest order: manifests in parsed
order, each one's layers in listed order. -/
def layerIds : List Manifest → List GoString
  | [] => []
  | manifest :: rest => manifest.Layers ++ layerIds rest

/-! ## Predicates on trees and entries -/

/-- A well-formed tree: whatever lies above an existing path is a directory, and the
working directory exists. -/
def FileSystem.WF (fs : FileSystem) : Prop :=
  (∀ p q : Path, fs.get p ≠ none → q <+: p → q ≠ p → fs.get q = some Node.dir) ∧
  fs.get fs.proc.cwd = some Node.dir

/-- An entry that `unpackLayer` treats as a directory or a regular file: its base name
does not carry the whiteout prefix and its type flag is one of the two. -/
def plainEntry (e : TarEntry) : Prop :=
  HasPrefix (Base e.hdr.Name) ".wh.".toList = false ∧
  (e.hdr.Typeflag = TypeDir ∨ e.hdr.Typeflag = TypeReg)

instance (e : TarEntry) : Decidable (plainEntry e) :=
  inferInstanceAs (Decidable (_ ∧ _))

/-- A file that the entry creates can be opened again by the process for reading and
writing: the process is privileged, or the permission bits the file gets from the
entry's mode grant its owner both. Entries that are not regular files qualify. -/
def reopenable (proc : Process) (e : TarEntry) : Prop :=
  e.hdr.Typeflag = TypeReg →
    proc.mayReadWrite (createPerm proc.umask e.hdr.Mode) Who.owner = true

instance (proc : Process) (e : TarEntry) : Decidable (reopenable proc e) :=
  inferInstanceAs (Decidable (_ → _))

/-- Kinds persist from `S` to `U`: a directory of `S` is a directory of `U`, a file of
`S` is a file of `U` with the same permission bits. -/
def Below (S U : FileSystem) : Prop :=
  ∀ p, (S.get p = some Node.dir → U.get p = some Node.dir) ∧
    (∀ s perm who, S.get p = some (Node.file s perm who) →
      ∃ u, U.get p = some (Node.file u perm who))

/-- The relation between a first pass over a layer at state `S` and a second pass at
state `R`, where `U` is the tree the first pass ends with: a path the first pass has
not made yet is in `R` what it is in `U`; a directory of `S` is one of `R`; a file of
`S` is a file of `R` with the same permission bits that has the same bytes as in `S`
below some length and the same bytes as in `U` from that length on. -/
def Ahead (S R U : FileSystem) : Prop :=
  R.proc = S.proc ∧ ∀ p,
    (S.get p = none → R.get p = U.get p) ∧
    (S.get p = some Node.dir → R.get p = some Node.dir) ∧
    (∀ s perm who, S.get p = some (Node.file s perm who) →
      ∃ r L, R.get p = some (Node.file r perm who) ∧ s.take L = r.take L ∧
        ∀ u perm1 who1, U.get p = some (Node.file u perm1 who1) → r.drop L = u.drop L)

/-! ## Sample inputs -/

/-- An unprivileged process working at the root, with the mask 022. -/
def user : Process := Process.mk [] false 18

/-- A file system with the root directory only, for the unprivileged process. -/
def emptyTree : FileSystem := FileSystem.mk user []

/-- A Docker engine that has a client and answers every save with the given stream. -/
def dockerServing (save : TarStream) : Docker :=
  Docker.mk none (fun _ => Except.ok save) (fun _ => none) (fun _ => Except.ok save)

/-- A JSON decoder that decodes every manifest entry to the given manifests. -/
def unmarshalTo (manifests : List Manifest) :
    Bytes → List Manifest → Except GoError (List Manifest) :=
  fun _ _ => Except.ok manifests

/-- An entry of an outer archive with the given name and bytes. -/
def blobEntry (name : GoString) (content : Bytes) : TarEntry :=
  TarEntry.mk (Header.mk name TypeReg 420) content none

/-- A directory entry of a layer, mode 0755. -/
def dirEntry (name : GoString) : TarEntry :=
  TarEntry.mk (Header.mk name TypeDir 493) [] none

/-- A regular-file entry of a layer, mode 0644. -/
def fileEntry (name : GoString) (content : Bytes) : TarEntry :=
  TarEntry.mk (Header.mk name TypeReg 420) content none

/-- A regular-file entry of a layer, mode 0444. -/
def readOnlyEntry (name : GoString) (content : Bytes) : TarEntry :=
  TarEntry.mk (Header.mk name TypeReg 292) content none

/-- A tar reader for two sample layers: the bytes `[1]` hold a layer that creates the
directory `a` and the file `a/b.txt`, the bytes `[2]` a layer with a whiteout for
`b.txt` in `a`; anything else is an empty archive. -/
def sampleUntar (tarBytes : Bytes) : TarStream :=
  if tarBytes = [1] then
    TarStream.mk [dirEntry "a".toList, fileEntry "a/b.txt".toList [104, 105]] none
  else if tarBytes = [2] then
    TarStream.mk [fileEntry "a/.wh.b.txt".toList []] none
  else TarStream.mk [] none

/-- A tar reader that reads any bytes as the layer with the directory `a` and the
file `a/b.txt` of mode 0444. -/
def readOnlyUntar (_ : Bytes) : TarStream :=
  TarStream.mk [dirEntry "a".toList, readOnlyEntry "a/b.txt".toList [104, 105]] none

/-- A tree holding the file `b.txt` with bytes `[1, 2, 3]` and mode 0644 under both
`/dest/a` and `/out/a`, for the unprivileged process that owns both. -/
def twoRoots : FileSystem :=
  FileSystem.mk user
    [(["dest".toList, "a".toList, "b.txt".toList], Node.file [1, 2, 3] 420 Who.owner),
     (["dest".toList, "a".toList], Node.dir),
     (["dest".toList], Node.dir),
     (["out".toList, "a".toList, "b.txt".toList], Node.file [1, 2, 3] 420 Who.owner),
     (["out".toList, "a".toList], Node.dir),
     (["out".toList], Node.dir)]

/-- An outer archive with a manifest entry, the blobs `l1/layer.tar` (bytes `[1]`) and
`l2/layer.tar` (bytes `[2]`), and a blob `extra.tar` that no manifest lists. -/
def sampleImage : TarStream :=
  TarStream.mk
    [blobEntry "manifest.json".toList [], blobEntry "l1/layer.tar".toList [1],
     blobEntry "extra.tar".toList [3], blobEntry "l2/layer.tar".toList [2]] none

/-- The manifests the sample decoder yields for `sampleImage`. -/
def sampleManifests : List Manifest :=
  [Manifest.mk ["l1/layer.tar".toList, "l2/layer.tar".toList]]

/-- An outer archive whose manifest lists `l1/layer.tar` but which holds no such blob. -/
def imageMissingBlob : TarStream :=
  TarStream.mk [blobEntry "manifest.json".toList [], blobEntry "l2/layer.tar".toList [2]] none

/-- An outer archive with one blob and no manifest entry. -/
def imageWithoutManifest : TarStream :=
  TarStream.mk [blobEntry "l1/layer.tar".toList [1]] none

/-! ## Theorems: evaluations at concrete inputs -/

/-- C2: with destination root `dest`, the whiteout entry `a/.wh.b.txt` makes
`unpackLayer` compute the path `out/a/b.txt`, not `dest/a/b.txt`: applying it to a tree
that holds both files removes the one under `out` and keeps the one under `dest`. -/
theorem whiteout_path_uses_out_not_outDir :
    whiteoutPath "a/.wh.b.txt".toList = "out/a/b.txt".toList ∧
    Join ["dest".toList, Dir "a/.wh.b.txt".toList, (Base "a/.wh.b.txt".toList).drop 4]
      = "dest/a/b.txt".toList ∧
    (applyEntry "dest".toList (fileEntry "a/.wh.b.txt".toList []) twoRoots).2.get
      ["out".toList, "a".toList, "b.txt".toList] = none ∧
    (applyEntry "dest".toList (fileEntry "a/.wh.b.txt".toList []) twoRoots).2.get
      ["dest".toList, "a".toList, "b.txt".toList] = some (Node.file [1, 2, 3] 420 Who.owner) := by
  decide

/-- C3: with destination root `dest`, applying a layer that creates `a/b.txt` and then
a layer with a whiteout for `b.txt` in `a` succeeds both times and leaves
`/dest/a/b.txt` in place with its bytes. -/
theorem whiteout_leaves_target_under_dest :
    (unpackLayer sampleUntar [1] "dest".toList emptyTree).1 = none ∧
    (unpackLayer sampleUntar [2] "dest".toList
      (unpackLayer sampleUntar [1] "dest".toList emptyTree).2).1 = none ∧
    (unpackLayer sampleUntar [2] "dest".toList
      (unpackLayer sampleUntar [1] "dest".toList emptyTree).2).2.get
        ["dest".toList, "a".toList, "b.txt".toList] = some (Node.file [104, 105] 420 Who.owner) := by
  decide

/-- C4: applying the regular-file entry `a/b.txt` with content `[9]` to a tree where
`/dest/a/b.txt` holds `[1, 2, 3]` succeeds and leaves the file holding `[9, 2, 3]`:
the tail of the old content stays. -/
theorem regular_file_keeps_old_tail :
    (applyEntry "dest".toList (fileEntry "a/b.txt".toList [9]) twoRoots).1 = none ∧
    (applyEntry "dest".toList (fileEntry "a/b.txt".toList [9]) twoRoots).2.get
      ["dest".toList, "a".toList, "b.txt".toList] = some (Node.file [9, 2, 3] 420 Who.owner) := by
  decide

/-- C6: the names `a/start.txt` and `layer.tar.gz` match `tarFile`, and `doSplat`'s
first loop stores both entries in `layerTars`. -/
theorem collect_stores_names_not_ending_in_tar :
    MatchString tarFile "a/start.txt".toList = true ∧
    MatchString tarFile "layer.tar.gz".toList = true ∧
    collect (unmarshalTo []) none
      [blobEntry "a/start.txt".toList [1], blobEntry "layer.tar.gz".toList [2]] [] []
      = Except.ok ([], [("layer.tar.gz".toList, [2]), ("a/start.txt".toList, [1])]) := by
  refine ⟨by decide, by decide, ?_⟩
  rfl

/-! ## Lemmas on `doSplat` -/

theorem fetchImage_sends_save (docker : Docker) (ref : GoString) :
    DockerCall.ImageSave ref ∈ (fetchImage docker ref).2 := by
  unfold fetchImage
  cases docker.save ref with
  | ok save => simp
  | error e =>
    cases docker.pull ref with
    | some err => simp
    | none => simp

theorem collect_without_manifest
    (unmarshal : Bytes → List Manifest → Except GoError (List Manifest))
    (es : List TarEntry) (hread : ∀ e ∈ es, e.readErr = none)
    (hno : ∀ e ∈ es, e.hdr.Name ≠ "manifest.json".toList)
    (manifests : List Manifest) (layerTars : LayerTars) :
    ∃ layerTars1, collect unmarshal none es manifests layerTars
      = Except.ok (manifests, layerTars1) := by
  induction es generalizing layerTars with
  | nil => exact ⟨layerTars, rfl⟩
  | cons e es ih =>
    have hr : e.readErr = none := hread e (List.mem_cons_self _ _)
    have hn : e.hdr.Name ≠ "manifest.json".toList := hno e (List.mem_cons_self _ _)
    have hread1 : ∀ x ∈ es, x.readErr = none := fun x hx => hread x (List.mem_cons_of_mem _ hx)
    have hno1 : ∀ x ∈ es, x.hdr.Name ≠ "manifest.json".toList :=
      fun x hx => hno x (List.mem_cons_of_mem _ hx)
    unfold collect
    rw [if_neg hn, hr]
    by_cases hm : MatchString tarFile e.hdr.Name = true
    · rw [if_pos hm]
      exact ih hread1 hno1 _
    · rw [if_neg hm]
      exact ih hread1 hno1 _

theorem doSplat_of_collect (docker : Docker) (untar : Bytes → TarStream)
    (unmarshal : Bytes → List Manifest → Except GoError (List Manifest))
    (args : List GoString) (fs : FileSystem) (save : TarStream) (sent : List DockerCall)
    (manifests : List Manifest) (layerTars : LayerTars)
    (hclient : docker.clientErr = none)
    (hargs : args.length = 1 ∨ args.length = 2)
    (hfetch : fetchImage docker (args.getD 0 []) = (Except.ok save, sent))
    (hcollect : collect unmarshal save.err save.entries [] []
      = Except.ok (manifests, layerTars)) :
    doSplat docker untar unmarshal args fs
      = Run.mk (applyManifests untar layerTars (args.getD 1 []) manifests fs).outcome
          (DockerCall.NegotiateAPIVersion :: sent)
          (applyManifests untar layerTars (args.getD 1 []) manifests fs).calls
          (applyManifests untar layerTars (args.getD 1 []) manifests fs).fs := by
  have h0 : ¬ args.length = 0 := by omega
  have h2 : ¬ args.length > 2 := by omega
  unfold doSplat
  simp only [hclient, h0, h2, if_false, hfetch, hcollect]

theorem applyLayers_cons_missing (untar : Bytes → TarStream) (layerTars : LayerTars)
    (outDir layer : GoString) (rest : List GoString) (fs : FileSystem)
    (hfind : layerTars.find layer = none) :
    applyLayers untar layerTars outDir (layer :: rest) fs
      = Applied.mk (Outcome.panic "wtf") [] fs := by
  simp only [applyLayers, hfind]

theorem applyLayers_cons_failed (untar : Bytes → TarStream) (layerTars : LayerTars)
    (outDir layer : GoString) (rest : List GoString) (fs fs1 : FileSystem)
    (tarBytes : Bytes) (err : GoError)
    (hfind : layerTars.find layer = some tarBytes)
    (hu : unpackLayer untar tarBytes outDir fs = (some err, fs1)) :
    applyLayers untar layerTars outDir (layer :: rest) fs
      = Applied.mk (Outcome.error err) [(tarBytes, outDir)] fs1 := by
  simp only [applyLayers, hfind, hu]

theorem applyLayers_cons_applied (untar : Bytes → TarStream) (layerTars : LayerTars)
    (outDir layer : GoString) (rest : List GoString) (fs fs1 : FileSystem)
    (tarBytes : Bytes)
    (hfind : layerTars.find layer = some tarBytes)
    (hu : unpackLayer untar tarBytes outDir fs = (none, fs1)) :
    applyLayers untar layerTars outDir (layer :: rest) fs
      = Applied.mk (applyLayers untar layerTars outDir rest fs1).outcome
          ((tarBytes, outDir) :: (applyLayers untar layerTars outDir rest fs1).calls)
          (applyLayers untar layerTars outDir rest fs1).fs := by
  simp only [applyLayers, hfind, hu]

theorem applyLayers_outcome (untar : Bytes → TarStream) (layerTars : LayerTars)
    (outDir : GoString) (layers : List GoString) (fs : FileSystem) :
    (applyLayers untar layerTars outDir layers fs).outcome = Outcome.nil ∨
    (applyLayers untar layerTars outDir layers fs).outcome = Outcome.panic "wtf" ∨
    ∃ err, (applyLayers untar layerTars outDir layers fs).outcome = Outcome.error err := by
  induction layers generalizing fs with
  | nil => exact Or.inl rfl
  | cons layer rest ih =>
    cases hfind : layerTars.find layer with
    | none =>
      rw [applyLayers_cons_missing untar layerTars outDir layer rest fs hfind]
      exact Or.inr (Or.inl rfl)
    | some tarBytes =>
      rcases hu : unpackLayer untar tarBytes outDir fs with ⟨oerr, fs1⟩
      cases oerr with
      | some err =>
        rw [applyLayers_cons_failed untar layerTars outDir layer rest fs fs1 tarBytes err hfind hu]
        exact Or.inr (Or.inr ⟨err, rfl⟩)
      | none =>
        rw [applyLayers_cons_applied untar layerTars outDir layer rest fs fs1 tarBytes hfind hu]
        exact ih fs1

theorem applyLayers_nil (untar : Bytes → TarStream) (layerTars : LayerTars)
    (outDir : GoString) (layers : List GoString) (fs : FileSystem)
    (h : (applyLayers untar layerTars outDir layers fs).outcome = Outcome.nil) :
    (applyLayers untar layerTars outDir layers fs).calls.map (fun c => some c.1)
        = layers.map layerTars.find ∧
    ∀ c ∈ (applyLayers untar layerTars outDir layers fs).calls, c.2 = outDir := by
  induction layers generalizing fs with
  | nil => simp [applyLayers]
  | cons layer rest ih =>
    cases hfind : layerTars.find layer with
    | none =>
      rw [applyLayers_cons_missing untar layerTars outDir layer rest fs hfind] at h
      simp at h
    | some tarBytes =>
      rcases hu : unpackLayer untar tarBytes outDir fs with ⟨oerr, fs1⟩
      cases oerr with
      | some err =>
        rw [applyLayers_cons_failed untar layerTars outDir layer rest fs fs1 tarBytes err
          hfind hu] at h
        simp at h
      | none =>
        rw [applyLayers_cons_applied untar layerTars outDir layer rest fs fs1 tarBytes
          hfind hu] at h ⊢
        have ih1 := ih fs1 h
        refine ⟨?_, ?_⟩
        · simp only [List.map_cons, hfind, ih1.1]
        · intro c hc
          simp only [List.mem_cons] at hc
          rcases hc with hc | hc
          · rw [hc]
          · exact ih1.2 c hc

theorem applyLayers_no_panic (untar : Bytes → TarStream) (layerTars : LayerTars)
    (outDir : GoString) (layers : List GoString) (fs : FileSystem)
    (hfound : ∀ id ∈ layers, ∃ b, layerTars.find id = some b) (msg : String) :
    (applyLayers untar layerTars outDir layers fs).outcome ≠ Outcome.panic msg := by
  induction layers generalizing fs with
  | nil => simp [applyLayers]
  | cons layer rest ih =>
    obtain ⟨b, hb⟩ := hfound layer (List.mem_cons_self _ _)
    rcases hu : unpackLayer untar b outDir fs with ⟨oerr, fs1⟩
    cases oerr with
    | some err =>
      rw [applyLayers_cons_failed untar layerTars outDir layer rest fs fs1 b err hb hu]
      simp
    | none =>
      rw [applyLayers_cons_applied untar layerTars outDir layer rest fs fs1 b hb hu]
      exact ih fs1 (fun id hid => hfound id (List.mem_cons_of_mem _ hid))

theorem applyManifests_cons_applied (untar : Bytes → TarStream) (layerTars : LayerTars)
    (outDir : GoString) (m : Manifest) (rest : List Manifest) (fs : FileSystem)
    (h : (applyLayers untar layerTars outDir m.Layers fs).outcome = Outcome.nil) :
    applyManifests untar layerTars outDir (m :: rest) fs
      = Applied.mk
          (applyManifests untar layerTars outDir rest
            (applyLayers untar layerTars outDir m.Layers fs).fs).outcome
          ((applyLayers untar layerTars outDir m.Layers fs).calls ++
            (applyManifests untar layerTars outDir rest
              (applyLayers untar layerTars outDir m.Layers fs).fs).calls)
          (applyManifests untar layerTars outDir rest
            (applyLayers untar layerTars outDir m.Layers fs).fs).fs := by
  simp only [applyManifests, h]

theorem applyManifests_cons_stopped (untar : Bytes → TarStream) (layerTars : LayerTars)
    (outDir : GoString) (m : Manifest) (rest : List Manifest) (fs : FileSystem)
    (h : (applyLayers untar layerTars outDir m.Layers fs).outcome ≠ Outcome.nil) :
    applyManifests untar layerTars outDir (m :: rest) fs
      = applyLayers untar layerTars outDir m.Layers fs := by
  unfold applyManifests
  cases ho : (applyLayers untar layerTars outDir m.Layers fs).outcome with
  | nil => exact absurd ho h
  | error err => simp only [ho]
  | panic msg => simp only [ho]

theorem applyManifests_outcome (untar : Bytes → TarStream) (layerTars : LayerTars)
    (outDir : GoString) (manifests : List Manifest) (fs : FileSystem) :
    (applyManifests untar layerTars outDir manifests fs).outcome = Outcome.nil ∨
    (applyManifests untar layerTars outDir manifests fs).outcome = Outcome.panic "wtf" ∨
    ∃ err, (applyManifests untar layerTars outDir manifests fs).outcome
      = Outcome.error err := by
  induction manifests generalizing fs with
  | nil => exact Or.inl rfl
  | cons m rest ih =>
    by_cases h : (applyLayers untar layerTars outDir m.Layers fs).outcome = Outcome.nil
    · rw [applyManifests_cons_applied untar layerTars outDir m rest fs h]
      exact ih _
    · rw [applyManifests_cons_stopped untar layerTars outDir m rest fs h]
      exact applyLayers_outcome untar layerTars outDir m.Layers fs

theorem applyManifests_nil (untar : Bytes → TarStream) (layerTars : LayerTars)
    (outDir : GoString) (manifests : List Manifest) (fs : FileSystem)
    (h : (applyManifests untar layerTars outDir manifests fs).outcome = Outcome.nil) :
    (applyManifests untar layerTars outDir manifests fs).calls.map (fun c => some c.1)
        = (layerIds manifests).map layerTars.find ∧
    ∀ c ∈ (applyManifests untar layerTars outDir manifests fs).calls, c.2 = outDir := by
  induction manifests generalizing fs with
  | nil => simp [applyManifests, layerIds]
  | cons m rest ih =>
    by_cases h1 : (applyLayers untar layerTars outDir m.Layers fs).outcome = Outcome.nil
    · rw [applyManifests_cons_applied untar layerTars outDir m rest fs h1] at h ⊢
      have ih1 := ih _ h
      have hl := applyLayers_nil untar layerTars outDir m.Layers fs h1
      refine ⟨?_, ?_⟩
      · simp only [layerIds, List.map_append, hl.1, ih1.1]
      · intro c hc
        rcases List.mem_append.mp hc with hc | hc
        · exact hl.2 c hc
        · exact ih1.2 c hc
    · rw [applyManifests_cons_stopped untar layerTars outDir m rest fs h1] at h
      exact absurd h h1

theorem applyManifests_no_panic (untar : Bytes → TarStream) (layerTars : LayerTars)
    (outDir : GoString) (manifests : List Manifest) (fs : FileSystem)
    (hfound : ∀ id ∈ layerIds manifests, ∃ b, layerTars.find id = some b) (msg : String) :
    (applyManifests untar layerTars outDir manifests fs).outcome ≠ Outcome.panic msg := by
  induction manifests generalizing fs with
  | nil => simp [applyManifests]
  | cons m rest ih =>
    have hm : ∀ id ∈ m.Layers, ∃ b, layerTars.find id = some b :=
      fun id hid => hfound id (by simp [layerIds, hid])
    have hr : ∀ id ∈ layerIds rest, ∃ b, layerTars.find id = some b :=
      fun id hid => hfound id (by simp [layerIds, hid])
    by_cases h1 : (applyLayers untar layerTars outDir m.Layers fs).outcome = Outcome.nil
    · rw [applyManifests_cons_applied untar layerTars outDir m rest fs h1]
      exact ih _ hr
    · rw [applyManifests_cons_stopped untar layerTars outDir m rest fs h1]
      exact applyLayers_no_panic untar layerTars outDir m.Layers fs hm msg

theorem applyManifests_nil_found (untar : Bytes → TarStream) (layerTars : LayerTars)
    (outDir : GoString) (manifests : List Manifest) (fs : FileSystem)
    (h : (applyManifests untar layerTars outDir manifests fs).outcome = Outcome.nil) :
    ∀ id ∈ layerIds manifests, ∃ b, layerTars.find id = some b := by
  intro id hid
  have hmap := (applyManifests_nil untar layerTars outDir manifests fs h).1
  have hmem : layerTars.find id ∈ (layerIds manifests).map layerTars.find :=
    List.mem_map_of_mem _ hid
  rw [← hmap] at hmem
  obtain ⟨c, _, hc⟩ := List.mem_map.mp hmem
  exact ⟨c.1, hc.symm⟩

theorem applyLayers_panic (untar : Bytes → TarStream) (layerTars : LayerTars)
    (outDir : GoString) (layers : List GoString) (fs : FileSystem) (msg : String)
    (h : (applyLayers untar layerTars outDir layers fs).outcome = Outcome.panic msg) :
    msg = "wtf" ∧ ∃ pre id post, layers = pre ++ id :: post ∧ layerTars.find id = none ∧
      (applyLayers untar layerTars outDir layers fs).calls.map (fun c => some c.1)
        = pre.map layerTars.find := by
  induction layers generalizing fs with
  | nil => simp [applyLayers] at h
  | cons layer rest ih =>
    cases hfind : layerTars.find layer with
    | none =>
      rw [applyLayers_cons_missing untar layerTars outDir layer rest fs hfind] at h ⊢
      simp only [Outcome.panic.injEq] at h
      exact ⟨h.symm, [], layer, rest, rfl, hfind, rfl⟩
    | some tarBytes =>
      rcases hu : unpackLayer untar tarBytes outDir fs with ⟨oerr, fs1⟩
      cases oerr with
      | some err =>
        rw [applyLayers_cons_failed untar layerTars outDir layer rest fs fs1 tarBytes err
          hfind hu] at h
        simp at h
      | none =>
        rw [applyLayers_cons_applied untar layerTars outDir layer rest fs fs1 tarBytes
          hfind hu] at h ⊢
        obtain ⟨hmsg, pre, id, post, hsplit, hnone, hcalls⟩ := ih fs1 h
        refine ⟨hmsg, layer :: pre, id, post, ?_, hnone, ?_⟩
        · rw [hsplit]
          rfl
        · simp only [List.map_cons, hfind, hcalls]

theorem applyLayers_error (untar : Bytes → TarStream) (layerTars : LayerTars)
    (outDir : GoString) (layers : List GoString) (fs : FileSystem) (err : GoError)
    (h : (applyLayers untar layerTars outDir layers fs).outcome = Outcome.error err) :
    ∃ init b fs0,
      (applyLayers untar layerTars outDir layers fs).calls = init ++ [(b, outDir)] ∧
      unpackLayer untar b outDir fs0
        = (some err, (applyLayers untar layerTars outDir layers fs).fs) := by
  induction layers generalizing fs with
  | nil => simp [applyLayers] at h
  | cons layer rest ih =>
    cases hfind : layerTars.find layer with
    | none =>
      rw [applyLayers_cons_missing untar layerTars outDir layer rest fs hfind] at h
      simp at h
    | some tarBytes =>
      rcases hu : unpackLayer untar tarBytes outDir fs with ⟨oerr, fs1⟩
      cases oerr with
      | some err1 =>
        rw [applyLayers_cons_failed untar layerTars outDir layer rest fs fs1 tarBytes err1
          hfind hu] at h ⊢
        simp only [Outcome.error.injEq] at h
        subst h
        exact ⟨[], tarBytes, fs, rfl, hu⟩
      | none =>
        rw [applyLayers_cons_applied untar layerTars outDir layer rest fs fs1 tarBytes
          hfind hu] at h ⊢
        obtain ⟨init, b, fs0, hcalls, hfail⟩ := ih fs1 h
        refine ⟨(tarBytes, outDir) :: init, b, fs0, ?_, hfail⟩
        simp only [hcalls, List.cons_append]

theorem applyManifests_panic (untar : Bytes → TarStream) (layerTars : LayerTars)
    (outDir : GoString) (manifests : List Manifest) (fs : FileSystem) (msg : String)
    (h : (applyManifests untar layerTars outDir manifests fs).outcome = Outcome.panic msg) :
    msg = "wtf" ∧ ∃ pre id post, layerIds manifests = pre ++ id :: post ∧
      layerTars.find id = none ∧
      (applyManifests untar layerTars outDir manifests fs).calls.map (fun c => some c.1)
        = pre.map layerTars.find := by
  induction manifests generalizing fs with
  | nil => simp [applyManifests] at h
  | cons m rest ih =>
    by_cases h1 : (applyLayers untar layerTars outDir m.Layers fs).outcome = Outcome.nil
    · rw [applyManifests_cons_applied untar layerTars outDir m rest fs h1] at h ⊢
      obtain ⟨hmsg, pre, id, post, hsplit, hnone, hcalls⟩ := ih _ h
      have hl := (applyLayers_nil untar layerTars outDir m.Layers fs h1).1
      refine ⟨hmsg, m.Layers ++ pre, id, post, ?_, hnone, ?_⟩
      · simp only [layerIds, hsplit, List.append_assoc]
      · simp only [List.map_append, hl, hcalls]
    · rw [applyManifests_cons_stopped untar layerTars outDir m rest fs h1] at h ⊢
      obtain ⟨hmsg, pre, id, post, hsplit, hnone, hcalls⟩ :=
        applyLayers_panic untar layerTars outDir m.Layers fs msg h
      refine ⟨hmsg, pre, id, post ++ layerIds rest, ?_, hnone, hcalls⟩
      simp only [layerIds, hsplit, List.append_assoc, List.cons_append]

theorem applyManifests_error (untar : Bytes → TarStream) (layerTars : LayerTars)
    (outDir : GoString) (manifests : List Manifest) (fs : FileSystem) (err : GoError)
    (h : (applyManifests untar layerTars outDir manifests fs).outcome = Outcome.error err) :
    ∃ init b fs0,
      (applyManifests untar layerTars outDir manifests fs).calls = init ++ [(b, outDir)] ∧
      unpackLayer untar b outDir fs0
        = (some err, (applyManifests untar layerTars outDir manifests fs).fs) := by
  induction manifests generalizing fs with
  | nil => simp [applyManifests] at h
  | cons m rest ih =>
    by_cases h1 : (applyLayers untar layerTars outDir m.Layers fs).outcome = Outcome.nil
    · rw [applyManifests_cons_applied untar layerTars outDir m rest fs h1] at h ⊢
      obtain ⟨init, b, fs0, hcalls, hfail⟩ := ih _ h
      refine ⟨(applyLayers untar layerTars outDir m.Layers fs).calls ++ init, b, fs0, ?_,
        hfail⟩
      simp only [hcalls, List.append_assoc]
    · rw [applyManifests_cons_stopped untar layerTars outDir m rest fs h1] at h ⊢
      exact applyLayers_error untar layerTars outDir m.Layers fs err h

/-! ## Theorems on `doSplat` -/

/-- C1: when the client is made, the image is fetched and the outer archive is read,
every listed layer identifier has a collected blob and no layer application returns an
error, `doSplat` returns nil after calling `unpackLayer` once per listed identifier:
the calls are as many as the identifiers, the i-th call receives the blob stored under
the i-th identifier in manifest order, and every call receives the destination
argument. -/
theorem doSplat_applies_layers_in_manifest_order (docker : Docker)
    (untar : Bytes → TarStream)
    (unmarshal : Bytes → List Manifest → Except GoError (List Manifest))
    (args : List GoString) (fs : FileSystem) (save : TarStream) (sent : List DockerCall)
    (manifests : List Manifest) (layerTars : LayerTars)
    (hclient : docker.clientErr = none)
    (hargs : args.length = 1 ∨ args.length = 2)
    (hfetch : fetchImage docker (args.getD 0 []) = (Except.ok save, sent))
    (hcollect : collect unmarshal save.err save.entries [] []
      = Except.ok (manifests, layerTars))
    (hfound : ∀ id ∈ layerIds manifests, (layerTars.find id).isSome = true)
    (hsucc : ∀ err, (doSplat docker untar unmarshal args fs).outcome ≠ Outcome.error err) :
    (doSplat docker untar unmarshal args fs).outcome = Outcome.nil ∧
    (doSplat docker untar unmarshal args fs).calls.length = (layerIds manifests).length ∧
    (doSplat docker untar unmarshal args fs).calls.map (fun c => some c.1)
      = (layerIds manifests).map layerTars.find ∧
    ∀ c ∈ (doSplat docker untar unmarshal args fs).calls, c.2 = args.getD 1 [] := by
  have heq := doSplat_of_collect docker untar unmarshal args fs save sent manifests
    layerTars hclient hargs hfetch hcollect
  rw [heq] at hsucc ⊢
  have hfound1 : ∀ id ∈ layerIds manifests, ∃ b, layerTars.find id = some b :=
    fun id hid => Option.isSome_iff_exists.mp (hfound id hid)
  have hnil : (applyManifests untar layerTars (args.getD 1 []) manifests fs).outcome
      = Outcome.nil := by
    rcases applyManifests_outcome untar layerTars (args.getD 1 []) manifests fs
      with h | h | ⟨err, h⟩
    · exact h
    · exact absurd h (applyManifests_no_panic untar layerTars _ manifests fs hfound1 _)
    · exact absurd h (hsucc err)
  have hcalls := applyManifests_nil untar layerTars (args.getD 1 []) manifests fs hnil
  refine ⟨hnil, ?_, hcalls.1, hcalls.2⟩
  have hlen := congrArg List.length hcalls.1
  simpa using hlen

/-- C1, at a sample image: two listed layers, one unlisted blob, destination `out`. -/
theorem doSplat_applies_layers_in_manifest_order_witness :
    (doSplat (dockerServing sampleImage) sampleUntar (unmarshalTo sampleManifests)
      ["img".toList, "out".toList] emptyTree).outcome = Outcome.nil ∧
    (doSplat (dockerServing sampleImage) sampleUntar (unmarshalTo sampleManifests)
      ["img".toList, "out".toList] emptyTree).calls.length
      = (layerIds sampleManifests).length ∧
    (doSplat (dockerServing sampleImage) sampleUntar (unmarshalTo sampleManifests)
      ["img".toList, "out".toList] emptyTree).calls.map (fun c => some c.1)
      = (layerIds sampleManifests).map
          (LayerTars.find [("l2/layer.tar".toList, [2]), ("extra.tar".toList, [3]),
            ("l1/layer.tar".toList, [1])]) ∧
    ∀ c ∈ (doSplat (dockerServing sampleImage) sampleUntar (unmarshalTo sampleManifests)
      ["img".toList, "out".toList] emptyTree).calls,
      c.2 = List.getD ["img".toList, "out".toList] 1 [] :=
  doSplat_applies_layers_in_manifest_order (dockerServing sampleImage) sampleUntar
    (unmarshalTo sampleManifests) ["img".toList, "out".toList] emptyTree sampleImage
    [DockerCall.ImageSave "img".toList] sampleManifests
    [("l2/layer.tar".toList, [2]), ("extra.tar".toList, [3]), ("l1/layer.tar".toList, [1])]
    rfl (Or.inr rfl) rfl rfl (by decide)
    (fun err h => by
      have hn : (doSplat (dockerServing sampleImage) sampleUntar
          (unmarshalTo sampleManifests) ["img".toList, "out".toList] emptyTree).outcome
          = Outcome.nil := by decide
      rw [hn] at h
      cases h)

/-- C7, as the code behaves: for the sample archive whose manifest lists a layer with
no collected blob, `doSplat` panics with `wtf`. -/
theorem missing_blob_makes_doSplat_panic :
    (doSplat (dockerServing imageMissingBlob) sampleUntar (unmarshalTo sampleManifests)
      ["img".toList, "out".toList] emptyTree).outcome = Outcome.panic "wtf" := by
  decide

/-- C7, amended: when the client is made, the image is fetched, the outer archive is
read, and some listed layer identifier has no collected blob, `doSplat` does not return
nil. Either it panics with `wtf` at a listed identifier that has no blob, having
called `unpackLayer` exactly on the blobs of the identifiers listed before it; or the
last call of `unpackLayer` it made returned an error, and `doSplat` returns that
error. -/
theorem doSplat_missing_blob (docker : Docker) (untar : Bytes → TarStream)
    (unmarshal : Bytes → List Manifest → Except GoError (List Manifest))
    (args : List GoString) (fs : FileSystem) (save : TarStream) (sent : List DockerCall)
    (manifests : List Manifest) (layerTars : LayerTars)
    (hclient : docker.clientErr = none)
    (hargs : args.length = 1 ∨ args.length = 2)
    (hfetch : fetchImage docker (args.getD 0 []) = (Except.ok save, sent))
    (hcollect : collect unmarshal save.err save.entries [] []
      = Except.ok (manifests, layerTars))
    (hmissing : ∃ id ∈ layerIds manifests, layerTars.find id = none) :
    ((doSplat docker untar unmarshal args fs).outcome = Outcome.panic "wtf" ∧
      ∃ pre id post, layerIds manifests = pre ++ id :: post ∧ layerTars.find id = none ∧
        (doSplat docker untar unmarshal args fs).calls.map (fun c => some c.1)
          = pre.map layerTars.find) ∨
    (∃ err init b fs0,
      (doSplat docker untar unmarshal args fs).outcome = Outcome.error err ∧
      (doSplat docker untar unmarshal args fs).calls = init ++ [(b, args.getD 1 [])] ∧
      unpackLayer untar b (args.getD 1 []) fs0
        = (some err, (doSplat docker untar unmarshal args fs).fs)) := by
  have heq := doSplat_of_collect docker untar unmarshal args fs save sent manifests
    layerTars hclient hargs hfetch hcollect
  rw [heq]
  cases ho : (applyManifests untar layerTars (args.getD 1 []) manifests fs).outcome with
  | nil =>
    obtain ⟨id, hid, hnone⟩ := hmissing
    obtain ⟨b, hb⟩ := applyManifests_nil_found untar layerTars _ manifests fs ho id hid
    rw [hnone] at hb
    cases hb
  | panic msg =>
    obtain ⟨hmsg, hrest⟩ := applyManifests_panic untar layerTars _ manifests fs msg ho
    subst hmsg
    exact Or.inl ⟨rfl, hrest⟩
  | error err =>
    obtain ⟨init, b, fs0, hcalls, hfail⟩ :=
      applyManifests_error untar layerTars _ manifests fs err ho
    exact Or.inr ⟨err, init, b, fs0, rfl, hcalls, hfail⟩

/-- C7, amended, at the sample archive with the missing blob. -/
theorem doSplat_missing_blob_witness :
    ((doSplat (dockerServing imageMissingBlob) sampleUntar (unmarshalTo sampleManifests)
        ["img".toList, "out".toList] emptyTree).outcome = Outcome.panic "wtf" ∧
      ∃ pre id post, layerIds sampleManifests = pre ++ id :: post ∧
        LayerTars.find [("l2/layer.tar".toList, [2])] id = none ∧
        (doSplat (dockerServing imageMissingBlob) sampleUntar (unmarshalTo sampleManifests)
          ["img".toList, "out".toList] emptyTree).calls.map (fun c => some c.1)
          = pre.map (LayerTars.find [("l2/layer.tar".toList, [2])])) ∨
    (∃ err init b fs0,
      (doSplat (dockerServing imageMissingBlob) sampleUntar (unmarshalTo sampleManifests)
        ["img".toList, "out".toList] emptyTree).outcome = Outcome.error err ∧
      (doSplat (dockerServing imageMissingBlob) sampleUntar (unmarshalTo sampleManifests)
        ["img".toList, "out".toList] emptyTree).calls
        = init ++ [(b, List.getD ["img".toList, "out".toList] 1 [])] ∧
      unpackLayer sampleUntar b (List.getD ["img".toList, "out".toList] 1 []) fs0
        = (some err,
          (doSplat (dockerServing imageMissingBlob) sampleUntar
            (unmarshalTo sampleManifests) ["img".toList, "out".toList] emptyTree).fs)) :=
  doSplat_missing_blob (dockerServing imageMissingBlob) sampleUntar
    (unmarshalTo sampleManifests) ["img".toList, "out".toList] emptyTree imageMissingBlob
    [DockerCall.ImageSave "img".toList] sampleManifests [("l2/layer.tar".toList, [2])]
    rfl (Or.inr rfl) rfl rfl ⟨"l1/layer.tar".toList, by decide, by decide⟩

/-- C8, as the code behaves: for the sample archive with no manifest entry, `doSplat`
returns nil, having called `unpackLayer` not once. -/
theorem no_manifest_doSplat_returns_nil :
    (doSplat (dockerServing imageWithoutManifest) sampleUntar (unmarshalTo sampleManifests)
      ["img".toList, "out".toList] emptyTree).outcome = Outcome.nil ∧
    (doSplat (dockerServing imageWithoutManifest) sampleUntar (unmarshalTo sampleManifests)
      ["img".toList, "out".toList] emptyTree).calls = [] := by
  decide

/-- C8, amended: when the client is made, the image is fetched, and the outer archive
reads without error and has no entry named `manifest.json`, `doSplat` returns nil with
no call of `unpackLayer` and the file system as it was. -/
theorem doSplat_without_manifest (docker : Docker) (untar : Bytes → TarStream)
    (unmarshal : Bytes → List Manifest → Except GoError (List Manifest))
    (args : List GoString) (fs : FileSystem) (save : TarStream) (sent : List DockerCall)
    (hclient : docker.clientErr = none)
    (hargs : args.length = 1 ∨ args.length = 2)
    (hfetch : fetchImage docker (args.getD 0 []) = (Except.ok save, sent))
    (hend : save.err = none)
    (hread : ∀ e ∈ save.entries, e.readErr = none)
    (hno : ∀ e ∈ save.entries, e.hdr.Name ≠ "manifest.json".toList) :
    (doSplat docker untar unmarshal args fs).outcome = Outcome.nil ∧
    (doSplat docker untar unmarshal args fs).calls = [] ∧
    (doSplat docker untar unmarshal args fs).fs = fs := by
  obtain ⟨layerTars, hcollect⟩ := collect_without_manifest unmarshal save.entries hread hno
    [] []
  rw [← hend] at hcollect
  rw [doSplat_of_collect docker untar unmarshal args fs save sent [] layerTars hclient
    hargs hfetch hcollect]
  exact ⟨rfl, rfl, rfl⟩

/-- C8, amended, at the sample archive without a manifest. -/
theorem doSplat_without_manifest_witness :
    (doSplat (dockerServing imageWithoutManifest) sampleUntar (unmarshalTo sampleManifests)
      ["img".toList, "out".toList] emptyTree).outcome = Outcome.nil ∧
    (doSplat (dockerServing imageWithoutManifest) sampleUntar (unmarshalTo sampleManifests)
      ["img".toList, "out".toList] emptyTree).calls = [] ∧
    (doSplat (dockerServing imageWithoutManifest) sampleUntar (unmarshalTo sampleManifests)
      ["img".toList, "out".toList] emptyTree).fs = emptyTree :=
  doSplat_without_manifest (dockerServing imageWithoutManifest) sampleUntar
    (unmarshalTo sampleManifests) ["img".toList, "out".toList] emptyTree
    imageWithoutManifest [DockerCall.ImageSave "img".toList]
    rfl (Or.inr rfl) rfl rfl (by decide) (by decide)

/-- C10, as the code behaves: with one positional argument `doSplat` saves the image,
applies its layers with the empty string as destination, and returns nil. -/
theorem doSplat_one_argument_proceeds :
    (doSplat (dockerServing sampleImage) sampleUntar (unmarshalTo sampleManifests)
      ["img".toList] emptyTree).docker
      = [DockerCall.NegotiateAPIVersion, DockerCall.ImageSave "img".toList] ∧
    (doSplat (dockerServing sampleImage) sampleUntar (unmarshalTo sampleManifests)
      ["img".toList] emptyTree).calls = [([1], []), ([2], [])] ∧
    (doSplat (dockerServing sampleImage) sampleUntar (unmarshalTo sampleManifests)
      ["img".toList] emptyTree).outcome = Outcome.nil := by
  decide

/-- C10, amended: once the Docker client is made, `doSplat` with no argument or more
than two returns a usage error, having sent the engine only the version negotiation,
called `unpackLayer` not once and left the file system as it was; with one or two
arguments it asks the engine to save the image named by the first. -/
theorem doSplat_argument_count (docker : Docker) (untar : Bytes → TarStream)
    (unmarshal : Bytes → List Manifest → Except GoError (List Manifest))
    (args : List GoString) (fs : FileSystem) (hclient : docker.clientErr = none) :
    ((args.length = 0 ∨ 2 < args.length) →
      (∃ msg, (doSplat docker untar unmarshal args fs).outcome
        = Outcome.error (GoError.errorf msg)) ∧
      (doSplat docker untar unmarshal args fs).docker = [DockerCall.NegotiateAPIVersion] ∧
      (doSplat docker untar unmarshal args fs).calls = [] ∧
      (doSplat docker untar unmarshal args fs).fs = fs) ∧
    ((args.length = 1 ∨ args.length = 2) →
      DockerCall.ImageSave (args.getD 0 []) ∈
        (doSplat docker untar unmarshal args fs).docker) := by
  constructor
  · intro h
    by_cases h0 : args.length = 0
    · simp only [doSplat, hclient, h0, if_true]
      refine ⟨⟨_, rfl⟩, ?_, ?_, ?_⟩ <;> trivial
    · have h2 : args.length > 2 := by omega
      simp only [doSplat, hclient, h0, h2, if_true, if_false]
      refine ⟨⟨_, rfl⟩, ?_, ?_, ?_⟩ <;> trivial
  · intro h
    have h0 : ¬ args.length = 0 := by omega
    have h2 : ¬ args.length > 2 := by omega
    have hs := fetchImage_sends_save docker (args.getD 0 [])
    rcases hf : fetchImage docker (args.getD 0 []) with ⟨res, sent⟩
    rw [hf] at hs
    cases res with
    | error err =>
      simp only [doSplat, hclient, h0, h2, if_false, hf]
      exact List.mem_cons_of_mem _ hs
    | ok save =>
      simp only [doSplat, hclient, h0, h2, if_false, hf]
      cases collect unmarshal save.err save.entries [] [] with
      | error err => exact List.mem_cons_of_mem _ hs
      | ok r => exact List.mem_cons_of_mem _ hs

/-- C10, amended, at a run with three arguments. -/
theorem doSplat_argument_count_witness :
    ((List.length ["a".toList, "b".toList, "c".toList] = 0 ∨
        2 < List.length ["a".toList, "b".toList, "c".toList]) →
      (∃ msg, (doSplat (dockerServing sampleImage) sampleUntar (unmarshalTo sampleManifests)
        ["a".toList, "b".toList, "c".toList] emptyTree).outcome
        = Outcome.error (GoError.errorf msg)) ∧
      (doSplat (dockerServing sampleImage) sampleUntar (unmarshalTo sampleManifests)
        ["a".toList, "b".toList, "c".toList] emptyTree).docker
        = [DockerCall.NegotiateAPIVersion] ∧
      (doSplat (dockerServing sampleImage) sampleUntar (unmarshalTo sampleManifests)
        ["a".toList, "b".toList, "c".toList] emptyTree).calls = [] ∧
      (doSplat (dockerServing sampleImage) sampleUntar (unmarshalTo sampleManifests)
        ["a".toList, "b".toList, "c".toList] emptyTree).fs = emptyTree) ∧
    ((List.length ["a".toList, "b".toList, "c".toList] = 1 ∨
        List.length ["a".toList, "b".toList, "c".toList] = 2) →
      DockerCall.ImageSave (List.getD ["a".toList, "b".toList, "c".toList] 0 []) ∈
        (doSplat (dockerServing sampleImage) sampleUntar (unmarshalTo sampleManifests)
          ["a".toList, "b".toList, "c".toList] emptyTree).docker) :=
  doSplat_argument_count (dockerServing sampleImage) sampleUntar
    (unmarshalTo sampleManifests) ["a".toList, "b".toList, "c".toList] emptyTree rfl

/-! ## Lemmas on the file system -/

theorem get_root (fs : FileSystem) : fs.get [] = some Node.dir := by
  simp [FileSystem.get]

theorem get_set_self (fs : FileSystem) (p : Path) (n : Node) (hp : p ≠ []) :
    (fs.set p n).get p = some n := by
  simp [FileSystem.get, FileSystem.set, lookupNode, hp]

theorem get_set_ne (fs : FileSystem) (p q : Path) (n : Node) (h : q ≠ p) :
    (fs.set p n).get q = fs.get q := by
  unfold FileSystem.get FileSystem.set
  by_cases hq : q = []
  · simp [hq]
  · simp [hq, lookupNode, Ne.symm h]

theorem ne_root_of_get_none (fs : FileSystem) (p : Path) (h : fs.get p = none) : p ≠ [] := by
  intro hp
  rw [hp, get_root] at h
  cases h

theorem ne_root_of_get_file (fs : FileSystem) (p : Path) (d : Bytes) (perm : Nat)
    (who : Who) (h : fs.get p = some (Node.file d perm who)) : p ≠ [] := by
  intro hp
  rw [hp, get_root] at h
  cases h

theorem resolve_of_proc (fs fs1 : FileSystem) (h : fs1.proc = fs.proc) (name : GoString) :
    fs1.resolve name = fs.resolve name := by
  unfold FileSystem.resolve
  rw [h]

theorem aboveErr_none_iff (fs : FileSystem) (pre : Path) (rest : List GoString) :
    fs.aboveErr pre rest = none ↔
      ∀ q, q <+: rest → q ≠ rest → fs.get (pre ++ q) = some Node.dir := by
  induction rest generalizing pre with
  | nil =>
    simp only [FileSystem.aboveErr, true_iff]
    intro q hq hne
    exact absurd (List.prefix_nil.mp hq) hne
  | cons c r ih =>
    constructor
    · intro h q hq hne
      unfold FileSystem.aboveErr at h
      cases hg : fs.get pre with
      | none =>
        simp only [hg] at h
        cases h
      | some n =>
        cases n with
        | file d perm who =>
          simp only [hg] at h
          cases h
        | dir =>
          simp only [hg] at h
          cases q with
          | nil => simpa using hg
          | cons a q1 =>
            obtain ⟨hac, hq1⟩ := List.cons_prefix_cons.mp hq
            subst hac
            have hne1 : q1 ≠ r := fun hh => hne (by rw [hh])
            have := (ih (pre ++ [a])).mp h q1 hq1 hne1
            simpa [List.append_assoc] using this
    · intro h
      have hpre : fs.get pre = some Node.dir := by
        have := h [] (List.nil_prefix) (by simp)
        simpa using this
      unfold FileSystem.aboveErr
      simp only [hpre]
      apply (ih (pre ++ [c])).mpr
      intro q1 hq1 hne1
      have := h (c :: q1) (List.cons_prefix_cons.mpr ⟨rfl, hq1⟩)
        (fun hh => hne1 (List.cons_injective hh))
      simpa [List.append_assoc] using this

theorem aboveErr_mono (fs fs1 : FileSystem) (p : Path)
    (hdirs : ∀ q, fs.get q = some Node.dir → fs1.get q = some Node.dir)
    (h : fs.aboveErr [] p = none) : fs1.aboveErr [] p = none := by
  rw [aboveErr_none_iff] at h ⊢
  intro q hq hne
  exact hdirs _ (h q hq hne)

theorem lookup_eq_ok (fs : FileSystem) (p : Path) (n : Node)
    (h1 : fs.aboveErr [] p = none) (h2 : fs.get p = some n) : fs.lookup p = Except.ok n := by
  simp only [FileSystem.lookup, h1, h2]

theorem lookup_ok_inv (fs : FileSystem) (p : Path) (n : Node)
    (h : fs.lookup p = Except.ok n) : fs.aboveErr [] p = none ∧ fs.get p = some n := by
  unfold FileSystem.lookup at h
  cases h1 : fs.aboveErr [] p with
  | some err =>
    simp only [h1] at h
    cases h
  | none =>
    cases h2 : fs.get p with
    | none =>
      simp only [h1, h2] at h
      cases h
    | some m =>
      simp only [h1, h2, Except.ok.injEq] at h
      exact ⟨rfl, by rw [h]⟩

theorem mkdirAt_ok (fs fs1 : FileSystem) (p : Path) (h : mkdirAt fs p = (none, fs1)) :
    fs.aboveErr [] p = none ∧ fs.get p = none ∧ fs1 = fs.set p Node.dir := by
  unfold mkdirAt at h
  cases ha : fs.aboveErr [] p with
  | some err =>
    simp only [ha] at h
    simp at h
  | none =>
    cases hp : fs.get p with
    | some n =>
      simp only [ha, hp] at h
      simp at h
    | none =>
      simp only [ha, hp, Prod.mk.injEq, true_and] at h
      exact ⟨rfl, rfl, h.symm⟩

theorem mkdirAt_err (fs fs1 : FileSystem) (p : Path) (err : GoError)
    (h : mkdirAt fs p = (some err, fs1)) : fs1 = fs := by
  unfold mkdirAt at h
  cases ha : fs.aboveErr [] p with
  | some e =>
    simp only [ha, Prod.mk.injEq] at h
    exact h.2.symm
  | none =>
    cases hp : fs.get p with
    | some n =>
      simp only [ha, hp, Prod.mk.injEq] at h
      exact h.2.symm
    | none =>
      simp only [ha, hp] at h
      simp at h

theorem set_dir_keeps_dirs (fs : FileSystem) (p : Path) (hp : fs.get p = none) (q : Path)
    (h : fs.get q = some Node.dir) : (fs.set p Node.dir).get q = some Node.dir := by
  by_cases hqp : q = p
  · rw [hqp, hp] at h
    cases h
  · rw [get_set_ne _ _ _ _ hqp]
    exact h

theorem mkdirAllRev_spec (fs : FileSystem) (rp : List GoString) (fs1 : FileSystem)
    (h : mkdirAllRev fs rp = (none, fs1)) :
    fs1.proc = fs.proc ∧ fs1.lookup rp.reverse = Except.ok Node.dir ∧
    ∀ q, fs1.get q = fs.get q ∨ (fs.get q = none ∧ fs1.get q = some Node.dir) := by
  induction rp generalizing fs1 with
  | nil =>
    simp only [mkdirAllRev, Prod.mk.injEq, true_and] at h
    subst h
    exact ⟨rfl, lookup_eq_ok _ _ _ rfl (get_root _), fun q => Or.inl rfl⟩
  | cons c up ih =>
    unfold mkdirAllRev at h
    cases hl : fs.lookup (c :: up).reverse with
    | ok n =>
      cases n with
      | file d perm who =>
        simp only [hl] at h
        simp at h
      | dir =>
        simp only [hl, Prod.mk.injEq, true_and] at h
        subst h
        exact ⟨rfl, hl, fun q => Or.inl rfl⟩
    | error e0 =>
      rcases hr : mkdirAllRev fs up with ⟨oe, fs2⟩
      cases oe with
      | some err =>
        simp only [hl, hr] at h
        simp at h
      | none =>
        obtain ⟨hproc, _, hq⟩ := ih fs2 hr
        have hne : (c :: up).reverse ≠ [] := by simp
        rcases hm : mkdirAt fs2 (c :: up).reverse with ⟨om, fs3⟩
        cases om with
        | none =>
          simp only [hl, hr, hm, Prod.mk.injEq, true_and] at h
          subst h
          obtain ⟨habove, hnone, hset⟩ := mkdirAt_ok fs2 fs3 _ hm
          subst hset
          refine ⟨hproc, ?_, ?_⟩
          · exact lookup_eq_ok _ _ _
              (aboveErr_mono fs2 _ _ (set_dir_keeps_dirs fs2 _ hnone) habove)
              (get_set_self _ _ _ hne)
          · intro q
            by_cases hqp : q = (c :: up).reverse
            · subst hqp
              rcases hq (c :: up).reverse with hsame | ⟨_, hdir⟩
              · rw [hnone] at hsame
                exact Or.inr ⟨hsame.symm, get_set_self _ _ _ hne⟩
              · rw [hnone] at hdir
                cases hdir
            · rw [get_set_ne _ _ _ _ hqp]
              exact hq q
        | some err =>
          have h3 := mkdirAt_err fs2 fs3 _ err hm
          subst h3
          cases hl3 : fs3.lookup (c :: up).reverse with
          | error e3 =>
            simp only [hl, hr, hm, hl3] at h
            simp at h
          | ok n3 =>
            cases n3 with
            | file d perm who =>
              simp only [hl, hr, hm, hl3] at h
              simp at h
            | dir =>
              simp only [hl, hr, hm, hl3, Prod.mk.injEq, true_and] at h
              subst h
              exact ⟨hproc, hl3, hq⟩

theorem applyEntry_dir_eq (outDir : GoString) (e : TarEntry) (fs : FileSystem)
    (hname : HasPrefix (Base e.hdr.Name) ".wh.".toList = false)
    (htype : e.hdr.Typeflag = TypeDir) :
    applyEntry outDir e fs =
      match Stat fs (Join [outDir, e.hdr.Name]) with
      | Except.ok _ => (none, fs)
      | Except.error _ => MkdirAll fs (Join [outDir, e.hdr.Name]) := by
  unfold applyEntry
  simp only [hname, htype, if_true, Bool.false_eq_true, if_false]

theorem applyEntry_dir_existing (outDir : GoString) (e : TarEntry) (fs : FileSystem)
    (hname : HasPrefix (Base e.hdr.Name) ".wh.".toList = false)
    (htype : e.hdr.Typeflag = TypeDir) (p : Path) (n : Node)
    (hres : fs.resolve (Join [outDir, e.hdr.Name]) = some p)
    (hlook : fs.lookup p = Except.ok n) :
    applyEntry outDir e fs = (none, fs) := by
  rw [applyEntry_dir_eq outDir e fs hname htype]
  simp only [Stat, hres, hlook]

theorem applyEntry_dir_spec (outDir : GoString) (e : TarEntry) (fs fs1 : FileSystem)
    (hname : HasPrefix (Base e.hdr.Name) ".wh.".toList = false)
    (htype : e.hdr.Typeflag = TypeDir)
    (h : applyEntry outDir e fs = (none, fs1)) :
    ∃ p, fs.resolve (Join [outDir, e.hdr.Name]) = some p ∧
      (((∃ n, fs.lookup p = Except.ok n) ∧ fs1 = fs) ∨
       ((∀ n, fs.lookup p ≠ Except.ok n) ∧ mkdirAllRev fs p.reverse = (none, fs1))) := by
  rw [applyEntry_dir_eq outDir e fs hname htype] at h
  cases hres : fs.resolve (Join [outDir, e.hdr.Name]) with
  | none => simp [Stat, MkdirAll, hres] at h
  | some p =>
    refine ⟨p, rfl, ?_⟩
    cases hl : fs.lookup p with
    | ok n =>
      simp only [Stat, hres, hl, Prod.mk.injEq, true_and] at h
      exact Or.inl ⟨⟨n, rfl⟩, h.symm⟩
    | error e0 =>
      simp only [Stat, MkdirAll, hres, hl] at h
      exact Or.inr ⟨fun n hn => (nomatch hn), h⟩

theorem emptyTree_WF : emptyTree.WF := by
  refine ⟨?_, rfl⟩
  intro p q hp hq hne
  by_cases h : p = []
  · subst h
    exact absurd (List.prefix_nil.mp hq) hne
  · exact absurd (by simp [FileSystem.get, emptyTree, lookupNode, h]) hp

/-! ## Theorems on directory entries -/

/-- C9, as the code behaves: the directory entry `a/b.txt` applied with destination
`dest` to a tree where `/dest/a/b.txt` is a regular file returns no error and leaves
the path a regular file with its bytes. -/
theorem directory_entry_over_file_is_skipped :
    HasPrefix (Base (dirEntry "a/b.txt".toList).hdr.Name) ".wh.".toList = false ∧
    (dirEntry "a/b.txt".toList).hdr.Typeflag = TypeDir ∧
    (applyEntry "dest".toList (dirEntry "a/b.txt".toList) twoRoots).1 = none ∧
    (applyEntry "dest".toList (dirEntry "a/b.txt".toList) twoRoots).2.get
      ["dest".toList, "a".toList, "b.txt".toList]
      = some (Node.file [1, 2, 3] 420 Who.owner) := by
  decide

/-- C9, amended: for a well-formed tree and a directory entry (type flag directory,
base name without the whiteout prefix) that `unpackLayer` applies without error, the
destination path resolves; if nothing existed there before, the path and every path
above it are directories afterwards; if something existed there before, directory or
not, the tree is unchanged. -/
theorem applyEntry_directory (outDir : GoString) (e : TarEntry) (fs fs1 : FileSystem)
    (hwf : fs.WF)
    (hname : HasPrefix (Base e.hdr.Name) ".wh.".toList = false)
    (htype : e.hdr.Typeflag = TypeDir)
    (hok : applyEntry outDir e fs = (none, fs1)) :
    ∃ p, fs.resolve (Join [outDir, e.hdr.Name]) = some p ∧
      (fs.get p = none → ∀ q, q <+: p → fs1.get q = some Node.dir) ∧
      (fs.get p ≠ none → fs1 = fs) := by
  obtain ⟨p, hres, h⟩ := applyEntry_dir_spec outDir e fs fs1 hname htype hok
  refine ⟨p, hres, ?_, ?_⟩
  · intro hnone q hq
    rcases h with ⟨⟨n, hn⟩, _⟩ | ⟨_, hmk⟩
    · rw [(lookup_ok_inv fs p n hn).2] at hnone
      cases hnone
    · have hl := (mkdirAllRev_spec fs p.reverse fs1 hmk).2.1
      rw [List.reverse_reverse] at hl
      obtain ⟨habove, hget⟩ := lookup_ok_inv fs1 p _ hl
      by_cases hqp : q = p
      · rw [hqp]
        exact hget
      · have := (aboveErr_none_iff fs1 [] p).mp habove q hq hqp
        simpa using this
  · intro hex
    rcases h with ⟨_, heq⟩ | ⟨hfail, _⟩
    · exact heq
    · cases hg : fs.get p with
      | none => exact absurd hg hex
      | some n =>
        have habove : fs.aboveErr [] p = none := by
          rw [aboveErr_none_iff]
          intro q hq hne
          simpa using hwf.1 p q hex hq hne
        exact absurd (lookup_eq_ok fs p n habove hg) (hfail n)

/-- C9, amended, at the directory entry `a/b` applied to the empty tree. -/
theorem applyEntry_directory_witness :
    ∃ p, emptyTree.resolve (Join ["dest".toList, (dirEntry "a/b".toList).hdr.Name])
        = some p ∧
      (emptyTree.get p = none → ∀ q, q <+: p →
        (applyEntry "dest".toList (dirEntry "a/b".toList) emptyTree).2.get q
          = some Node.dir) ∧
      (emptyTree.get p ≠ none →
        (applyEntry "dest".toList (dirEntry "a/b".toList) emptyTree).2 = emptyTree) :=
  applyEntry_directory "dest".toList (dirEntry "a/b".toList) emptyTree
    (applyEntry "dest".toList (dirEntry "a/b".toList) emptyTree).2
    emptyTree_WF (by decide) (by decide) rfl

/-! ## Lemmas on regular-file entries -/

theorem TypeReg_ne_TypeDir : TypeReg ≠ TypeDir := by decide

theorem writeAt_zero (old data : Bytes) :
    writeAt old 0 data = data ++ old.drop data.length := by
  simp [writeAt]

theorem applyEntry_reg_eq (outDir : GoString) (e : TarEntry) (fs : FileSystem)
    (hname : HasPrefix (Base e.hdr.Name) ".wh.".toList = false)
    (htype : e.hdr.Typeflag = TypeReg) :
    applyEntry outDir e fs =
      match OpenFile fs (Join [outDir, e.hdr.Name]) [OpenFlag.O_CREATE, OpenFlag.O_RDWR]
          e.hdr.Mode with
      | Except.error err => (some err, fs)
      | Except.ok (fs1, f) => (e.readErr, (File.Write fs1 f e.content).1) := by
  unfold applyEntry
  simp only [hname, htype, if_true, Bool.false_eq_true, if_false, if_neg TypeReg_ne_TypeDir]

theorem applyEntry_reg_existing (outDir : GoString) (e : TarEntry) (fs : FileSystem)
    (hname : HasPrefix (Base e.hdr.Name) ".wh.".toList = false)
    (htype : e.hdr.Typeflag = TypeReg) (p : Path) (old : Bytes) (perm : Nat) (who : Who)
    (hres : fs.resolve (Join [outDir, e.hdr.Name]) = some p)
    (habove : fs.aboveErr [] p = none)
    (hget : fs.get p = some (Node.file old perm who))
    (hacc : fs.proc.mayReadWrite perm who = true) :
    applyEntry outDir e fs
      = (e.readErr,
          fs.set p (Node.file (e.content ++ old.drop e.content.length) perm who)) := by
  rw [applyEntry_reg_eq outDir e fs hname htype]
  have hflag : ¬ OpenFlag.O_TRUNC ∈ [OpenFlag.O_CREATE, OpenFlag.O_RDWR] := by decide
  simp only [OpenFile, hres, habove, hget, hacc, if_true, if_neg hflag, File.Write,
    writeAt_zero]

theorem applyEntry_reg_denied (outDir : GoString) (e : TarEntry) (fs : FileSystem)
    (hname : HasPrefix (Base e.hdr.Name) ".wh.".toList = false)
    (htype : e.hdr.Typeflag = TypeReg) (p : Path) (old : Bytes) (perm : Nat) (who : Who)
    (hres : fs.resolve (Join [outDir, e.hdr.Name]) = some p)
    (habove : fs.aboveErr [] p = none)
    (hget : fs.get p = some (Node.file old perm who))
    (hacc : fs.proc.mayReadWrite perm who = false) :
    applyEntry outDir e fs = (some GoError.EACCES, fs) := by
  rw [applyEntry_reg_eq outDir e fs hname htype]
  simp only [OpenFile, hres, habove, hget, hacc, Bool.false_eq_true, if_false]

theorem applyEntry_reg_created (outDir : GoString) (e : TarEntry) (fs : FileSystem)
    (hname : HasPrefix (Base e.hdr.Name) ".wh.".toList = false)
    (htype : e.hdr.Typeflag = TypeReg) (p : Path)
    (hres : fs.resolve (Join [outDir, e.hdr.Name]) = some p)
    (habove : fs.aboveErr [] p = none)
    (hget : fs.get p = none) :
    applyEntry outDir e fs
      = (e.readErr,
          (fs.set p (Node.file [] (createPerm fs.proc.umask e.hdr.Mode) Who.owner)).set p
            (Node.file e.content (createPerm fs.proc.umask e.hdr.Mode) Who.owner)) := by
  rw [applyEntry_reg_eq outDir e fs hname htype]
  have hflag : OpenFlag.O_CREATE ∈ [OpenFlag.O_CREATE, OpenFlag.O_RDWR] := by decide
  have hp : p ≠ [] := ne_root_of_get_none fs p hget
  simp only [OpenFile, hres, habove, hget, if_pos hflag, File.Write,
    get_set_self fs p _ hp, writeAt_zero, List.drop_nil, List.append_nil]

theorem applyEntry_reg_spec (outDir : GoString) (e : TarEntry) (fs fs1 : FileSystem)
    (hname : HasPrefix (Base e.hdr.Name) ".wh.".toList = false)
    (htype : e.hdr.Typeflag = TypeReg)
    (h : applyEntry outDir e fs = (none, fs1)) :
    ∃ p, fs.resolve (Join [outDir, e.hdr.Name]) = some p ∧ e.readErr = none ∧
      fs.aboveErr [] p = none ∧
      ((∃ old perm who, fs.get p = some (Node.file old perm who) ∧
          fs.proc.mayReadWrite perm who = true ∧
          fs1 = fs.set p (Node.file (e.content ++ old.drop e.content.length) perm who)) ∨
       (fs.get p = none ∧
          fs1 = (fs.set p (Node.file [] (createPerm fs.proc.umask e.hdr.Mode)
              Who.owner)).set p
            (Node.file e.content (createPerm fs.proc.umask e.hdr.Mode) Who.owner))) := by
  cases hres : fs.resolve (Join [outDir, e.hdr.Name]) with
  | none =>
    rw [applyEntry_reg_eq outDir e fs hname htype] at h
    simp [OpenFile, hres] at h
  | some p =>
    refine ⟨p, rfl, ?_⟩
    cases habove : fs.aboveErr [] p with
    | some err =>
      rw [applyEntry_reg_eq outDir e fs hname htype] at h
      simp [OpenFile, hres, habove] at h
    | none =>
      cases hget : fs.get p with
      | some n =>
        cases n with
        | dir =>
          rw [applyEntry_reg_eq outDir e fs hname htype] at h
          simp [OpenFile, hres, habove, hget] at h
        | file old perm who =>
          cases hacc : fs.proc.mayReadWrite perm who with
          | false =>
            rw [applyEntry_reg_denied outDir e fs hname htype p old perm who hres habove
              hget hacc] at h
            simp at h
          | true =>
            rw [applyEntry_reg_existing outDir e fs hname htype p old perm who hres habove
              hget hacc] at h
            simp only [Prod.mk.injEq] at h
            exact ⟨h.1, rfl, Or.inl ⟨old, perm, who, rfl, hacc, h.2.symm⟩⟩
      | none =>
        rw [applyEntry_reg_created outDir e fs hname htype p hres habove hget] at h
        simp only [Prod.mk.injEq] at h
        exact ⟨h.1, rfl, Or.inr ⟨rfl, h.2.symm⟩⟩

/-! ## Lemmas for applying a layer twice -/

theorem take_overwrite (c s r : Bytes) (L : Nat) (h : s.take L = r.take L) :
    (c ++ s.drop c.length).take (max L c.length)
      = (c ++ r.drop c.length).take (max L c.length) := by
  rw [List.take_append_eq_append_take, List.take_append_eq_append_take]
  congr 1
  rcases Nat.le_total c.length L with hle | hle
  · have hm : max L c.length = L := max_eq_left hle
    have hk : c.length + (L - c.length) = L := by omega
    rw [hm, List.take_drop, List.take_drop, hk, h]
  · have hm : max L c.length = c.length := max_eq_right hle
    simp [hm]

theorem drop_overwrite (c r : Bytes) (M : Nat) (h : c.length ≤ M) :
    (c ++ r.drop c.length).drop M = r.drop M := by
  have hk : c.length + (M - c.length) = M := by omega
  rw [List.drop_append_eq_append_drop, List.drop_eq_nil_of_le h, List.nil_append,
    List.drop_drop, hk]

theorem drop_further (r u : Bytes) (L M : Nat) (hle : L ≤ M) (h : r.drop L = u.drop L) :
    r.drop M = u.drop M := by
  have hk : L + (M - L) = M := by omega
  rw [← hk, ← List.drop_drop, ← List.drop_drop, h]

theorem Below.refl (S : FileSystem) : Below S S :=
  fun _ => ⟨fun h => h, fun s _ _ h => ⟨s, h⟩⟩

theorem Below.trans (S T U : FileSystem) (h1 : Below S T) (h2 : Below T U) : Below S U := by
  intro p
  refine ⟨fun h => (h2 p).1 ((h1 p).1 h), fun s perm who h => ?_⟩
  obtain ⟨t, ht⟩ := (h1 p).2 s perm who h
  exact (h2 p).2 t perm who ht

theorem applyEntry_below (outDir : GoString) (e : TarEntry) (S S1 : FileSystem)
    (hplain : plainEntry e) (h : applyEntry outDir e S = (none, S1)) : Below S S1 := by
  rcases hplain.2 with htype | htype
  · obtain ⟨p, _, hcase⟩ := applyEntry_dir_spec outDir e S S1 hplain.1 htype h
    rcases hcase with ⟨_, heq⟩ | ⟨_, hmk⟩
    · rw [heq]
      exact Below.refl S
    · obtain ⟨_, _, hq⟩ := mkdirAllRev_spec S p.reverse S1 hmk
      intro q
      rcases hq q with hsame | ⟨hnone, _⟩
      · rw [hsame]
        exact ⟨fun h => h, fun s _ _ h => ⟨s, h⟩⟩
      · rw [hnone]
        exact ⟨fun h => (nomatch h), fun s _ _ h => (nomatch h)⟩
  · obtain ⟨p, _, _, _, hcase⟩ := applyEntry_reg_spec outDir e S S1 hplain.1 htype h
    intro q
    rcases hcase with ⟨old, perm, who, hold, _, heq⟩ | ⟨hnone, heq⟩
    · by_cases hqp : q = p
      · subst hqp
        rw [heq, get_set_self _ _ _ (ne_root_of_get_file S q old perm who hold), hold]
        refine ⟨fun h => (nomatch h), fun s perm1 who1 h1 => ?_⟩
        injection h1 with h2
        injection h2 with _ h3 h4
        subst h3
        subst h4
        exact ⟨_, rfl⟩
      · rw [heq, get_set_ne _ _ _ _ hqp]
        exact ⟨fun h => h, fun s _ _ h => ⟨s, h⟩⟩
    · by_cases hqp : q = p
      · subst hqp
        rw [hnone]
        exact ⟨fun h => (nomatch h), fun s _ _ h => (nomatch h)⟩
      · rw [heq, get_set_ne _ _ _ _ hqp, get_set_ne _ _ _ _ hqp]
        exact ⟨fun h => h, fun s _ _ h => ⟨s, h⟩⟩

theorem applyEntry_proc (outDir : GoString) (e : TarEntry) (S S1 : FileSystem)
    (hplain : plainEntry e) (h : applyEntry outDir e S = (none, S1)) : S1.proc = S.proc := by
  rcases hplain.2 with htype | htype
  · obtain ⟨p, _, hcase⟩ := applyEntry_dir_spec outDir e S S1 hplain.1 htype h
    rcases hcase with ⟨_, heq⟩ | ⟨_, hmk⟩
    · rw [heq]
    · exact (mkdirAllRev_spec S p.reverse S1 hmk).1
  · obtain ⟨p, _, _, _, hcase⟩ := applyEntry_reg_spec outDir e S S1 hplain.1 htype h
    rcases hcase with ⟨old, perm, who, _, _, heq⟩ | ⟨_, heq⟩
    · rw [heq]
      rfl
    · rw [heq]
      rfl

theorem applyEntries_cons_ok (outDir : GoString) (e : TarEntry) (es : List TarEntry)
    (fs fs1 : FileSystem) (h : applyEntry outDir e fs = (none, fs1)) :
    applyEntries outDir (e :: es) fs = applyEntries outDir es fs1 := by
  simp only [applyEntries, h]

theorem applyEntries_cons_err (outDir : GoString) (e : TarEntry) (es : List TarEntry)
    (fs fs1 : FileSystem) (err : GoError) (h : applyEntry outDir e fs = (some err, fs1)) :
    applyEntries outDir (e :: es) fs = (some err, fs1) := by
  simp only [applyEntries, h]

theorem applyEntries_below (outDir : GoString) (es : List TarEntry)
    (hplain : ∀ e ∈ es, plainEntry e) (S S1 : FileSystem)
    (h : applyEntries outDir es S = (none, S1)) : Below S S1 ∧ S1.proc = S.proc := by
  induction es generalizing S with
  | nil =>
    simp only [applyEntries, Prod.mk.injEq, true_and] at h
    rw [h]
    exact ⟨Below.refl S1, rfl⟩
  | cons e es ih =>
    rcases h1 : applyEntry outDir e S with ⟨oe, S2⟩
    cases oe with
    | some err =>
      rw [applyEntries_cons_err outDir e es S S2 err h1] at h
      simp at h
    | none =>
      rw [applyEntries_cons_ok outDir e es S S2 h1] at h
      have hpl := hplain e (List.mem_cons_self _ _)
      obtain ⟨hb, hp⟩ := ih (fun x hx => hplain x (List.mem_cons_of_mem _ hx)) S2 h
      exact ⟨Below.trans S S2 S1 (applyEntry_below outDir e S S2 hpl h1) hb,
        by rw [hp, applyEntry_proc outDir e S S2 hpl h1]⟩

theorem ahead_exists (S R U : FileSystem) (hA : Ahead S R U) (p : Path) (n : Node)
    (h : S.get p = some n) : ∃ m, R.get p = some m := by
  cases n with
  | dir => exact ⟨_, (hA.2 p).2.1 h⟩
  | file s perm who =>
    obtain ⟨r, _, hr, _⟩ := (hA.2 p).2.2 s perm who h
    exact ⟨_, hr⟩

theorem ahead_above (S R U : FileSystem) (hA : Ahead S R U) (p : Path)
    (h : S.aboveErr [] p = none) : R.aboveErr [] p = none :=
  aboveErr_mono S R p (fun q hq => (hA.2 q).2.1 hq) h

theorem ahead_step_dir (outDir : GoString) (e : TarEntry) (S S1 R U : FileSystem)
    (hname : HasPrefix (Base e.hdr.Name) ".wh.".toList = false)
    (htype : e.hdr.Typeflag = TypeDir)
    (h : applyEntry outDir e S = (none, S1)) (hA : Ahead S R U) (hB : Below S1 U) :
    ∃ R1, applyEntry outDir e R = (none, R1) ∧ Ahead S1 R1 U := by
  obtain ⟨p, hres, hcase⟩ := applyEntry_dir_spec outDir e S S1 hname htype h
  have hresR : R.resolve (Join [outDir, e.hdr.Name]) = some p := by
    rw [resolve_of_proc S R hA.1]
    exact hres
  rcases hcase with ⟨⟨n, hn⟩, heq⟩ | ⟨_, hmk⟩
  · obtain ⟨habove, hget⟩ := lookup_ok_inv S p n hn
    obtain ⟨m, hm⟩ := ahead_exists S R U hA p n hget
    have hlook := lookup_eq_ok R p m (ahead_above S R U hA p habove) hm
    refine ⟨R, applyEntry_dir_existing outDir e R hname htype p m hresR hlook, ?_⟩
    rw [heq]
    exact hA
  · obtain ⟨hproc, hl, hq⟩ := mkdirAllRev_spec S p.reverse S1 hmk
    rw [List.reverse_reverse] at hl
    obtain ⟨habove1, hget1⟩ := lookup_ok_inv S1 p _ hl
    have hdirs : ∀ q, S1.get q = some Node.dir → R.get q = some Node.dir := by
      intro q hq1
      rcases hq q with hsame | ⟨hqnone, _⟩
      · rw [hsame] at hq1
        exact (hA.2 q).2.1 hq1
      · rw [(hA.2 q).1 hqnone]
        exact (hB q).1 hq1
    have hlook := lookup_eq_ok R p _ (aboveErr_mono S1 R p hdirs habove1) (hdirs p hget1)
    refine ⟨R, applyEntry_dir_existing outDir e R hname htype p _ hresR hlook, ?_, ?_⟩
    · rw [hproc]
      exact hA.1
    · intro q
      rcases hq q with hsame | ⟨hqnone, hqdir⟩
      · rw [hsame]
        exact hA.2 q
      · refine ⟨fun h1 => ?_, fun h1 => hdirs q h1, fun s perm who h1 => ?_⟩
        · rw [hqdir] at h1
          cases h1
        · rw [hqdir] at h1
          cases h1

theorem ahead_step_reg (outDir : GoString) (e : TarEntry) (S S1 R U : FileSystem)
    (hname : HasPrefix (Base e.hdr.Name) ".wh.".toList = false)
    (htype : e.hdr.Typeflag = TypeReg) (hre : reopenable S.proc e)
    (h : applyEntry outDir e S = (none, S1)) (hA : Ahead S R U) (hB : Below S1 U) :
    ∃ R1, applyEntry outDir e R = (none, R1) ∧ Ahead S1 R1 U := by
  obtain ⟨p, hres, hread, habove, hcase⟩ := applyEntry_reg_spec outDir e S S1 hname htype h
  have hresR : R.resolve (Join [outDir, e.hdr.Name]) = some p := by
    rw [resolve_of_proc S R hA.1]
    exact hres
  have haboveR := ahead_above S R U hA p habove
  rcases hcase with ⟨old, perm, who, hold, hacc, heq⟩ | ⟨hnone, heq⟩
  · obtain ⟨r, L, hr, htake, hU⟩ := (hA.2 p).2.2 old perm who hold
    have hp : p ≠ [] := ne_root_of_get_file S p old perm who hold
    have haccR : R.proc.mayReadWrite perm who = true := by
      rw [hA.1]
      exact hacc
    have hrun := applyEntry_reg_existing outDir e R hname htype p r perm who hresR haboveR
      hr haccR
    rw [hread] at hrun
    refine ⟨_, hrun, ?_, ?_⟩
    · rw [heq]
      exact hA.1
    · intro q
      by_cases hqp : q = p
      · subst hqp
        rw [heq, get_set_self _ _ _ hp, get_set_self _ _ _ hp]
        refine ⟨fun h1 => (nomatch h1), fun h1 => (nomatch h1), fun s perm1 who1 h1 => ?_⟩
        injection h1 with h2
        injection h2 with h3 h4 h5
        subst h3
        subst h4
        subst h5
        refine ⟨_, max L e.content.length, rfl,
          take_overwrite e.content old r L htake, fun u perm2 who2 hu => ?_⟩
        rw [drop_overwrite e.content r _ (le_max_right _ _)]
        exact drop_further r u L _ (le_max_left _ _) (hU u perm2 who2 hu)
      · rw [heq, get_set_ne _ _ _ _ hqp, get_set_ne _ _ _ _ hqp]
        exact hA.2 q
  · have hp : p ≠ [] := ne_root_of_get_none S p hnone
    have hS1 : S1.get p
        = some (Node.file e.content (createPerm S.proc.umask e.hdr.Mode) Who.owner) := by
      rw [heq]
      exact get_set_self _ _ _ hp
    obtain ⟨u, hu⟩ := (hB p).2 _ _ _ hS1
    have hr : R.get p
        = some (Node.file u (createPerm S.proc.umask e.hdr.Mode) Who.owner) := by
      rw [(hA.2 p).1 hnone]
      exact hu
    have haccR : R.proc.mayReadWrite (createPerm S.proc.umask e.hdr.Mode) Who.owner
        = true := by
      rw [hA.1]
      exact hre htype
    have hrun := applyEntry_reg_existing outDir e R hname htype p u _ _ hresR haboveR
      hr haccR
    rw [hread] at hrun
    refine ⟨_, hrun, ?_, ?_⟩
    · rw [heq]
      exact hA.1
    · intro q
      by_cases hqp : q = p
      · subst hqp
        rw [hS1, get_set_self _ _ _ hp]
        refine ⟨fun h1 => (nomatch h1), fun h1 => (nomatch h1), fun s perm1 who1 h1 => ?_⟩
        injection h1 with h2
        injection h2 with h3 h4 h5
        subst h3
        subst h4
        subst h5
        refine ⟨_, e.content.length, rfl, ?_, fun u1 perm2 who2 hu1 => ?_⟩
        · rw [List.take_length, List.take_left]
        · rw [hu] at hu1
          injection hu1 with h6
          injection h6 with h7
          rw [List.drop_left, h7]
      · rw [heq, get_set_ne _ _ _ _ hqp, get_set_ne _ _ _ _ hqp, get_set_ne _ _ _ _ hqp]
        exact hA.2 q

theorem ahead_step (outDir : GoString) (e : TarEntry) (S S1 R U : FileSystem)
    (hplain : plainEntry e) (hre : reopenable S.proc e)
    (h : applyEntry outDir e S = (none, S1)) (hA : Ahead S R U) (hB : Below S1 U) :
    ∃ R1, applyEntry outDir e R = (none, R1) ∧ Ahead S1 R1 U := by
  rcases hplain.2 with htype | htype
  · exact ahead_step_dir outDir e S S1 R U hplain.1 htype h hA hB
  · exact ahead_step_reg outDir e S S1 R U hplain.1 htype hre h hA hB

theorem ahead_applyEntries (outDir : GoString) (es : List TarEntry)
    (hplain : ∀ e ∈ es, plainEntry e) (S R U : FileSystem)
    (hre : ∀ e ∈ es, reopenable S.proc e)
    (h : applyEntries outDir es S = (none, U)) (hA : Ahead S R U) :
    ∃ R1, applyEntries outDir es R = (none, R1) ∧ Ahead U R1 U := by
  induction es generalizing S R with
  | nil =>
    simp only [applyEntries, Prod.mk.injEq, true_and] at h
    subst h
    exact ⟨R, rfl, hA⟩
  | cons e es ih =>
    have hrest : ∀ x ∈ es, plainEntry x := fun x hx => hplain x (List.mem_cons_of_mem _ hx)
    have hpl := hplain e (List.mem_cons_self _ _)
    rcases h1 : applyEntry outDir e S with ⟨oe, S1⟩
    cases oe with
    | some err =>
      rw [applyEntries_cons_err outDir e es S S1 err h1] at h
      simp at h
    | none =>
      rw [applyEntries_cons_ok outDir e es S S1 h1] at h
      have hB : Below S1 U := (applyEntries_below outDir es hrest S1 U h).1
      obtain ⟨R1, hR1, hA1⟩ :=
        ahead_step outDir e S S1 R U hpl (hre e (List.mem_cons_self _ _)) h1 hA hB
      have hre1 : ∀ x ∈ es, reopenable S1.proc x := by
        intro x hx
        rw [applyEntry_proc outDir e S S1 hpl h1]
        exact hre x (List.mem_cons_of_mem _ hx)
      obtain ⟨R2, hR2, hA2⟩ := ih hrest S1 R1 hre1 h hA1
      exact ⟨R2, by rw [applyEntries_cons_ok outDir e es R R1 hR1]; exact hR2, hA2⟩

theorem ahead_start (S U : FileSystem) (hproc : U.proc = S.proc) (hB : Below S U) :
    Ahead S U U := by
  refine ⟨hproc, fun p => ⟨fun _ => rfl, fun h => (hB p).1 h, fun s perm who h => ?_⟩⟩
  obtain ⟨u, hu⟩ := (hB p).2 s perm who h
  refine ⟨u, 0, hu, by simp, fun u1 perm1 who1 hu1 => ?_⟩
  rw [hu] at hu1
  cases hu1
  rfl

theorem ahead_end (U R : FileSystem) (hA : Ahead U R U) (p : Path) : R.get p = U.get p := by
  cases hu : U.get p with
  | none => rw [(hA.2 p).1 hu, hu]
  | some n =>
    cases n with
    | dir => exact (hA.2 p).2.1 hu
    | file s perm who =>
      obtain ⟨r, L, hr, htake, hdrop⟩ := (hA.2 p).2.2 s perm who hu
      have h1 : r = s := by
        rw [← List.take_append_drop L r, ← List.take_append_drop L s, htake,
          hdrop s perm who hu]
      rw [hr, h1]

/-! ## Theorems on applying a layer twice -/

/-- C5, as the code behaves: for the unprivileged process, the layer with the
directory `a` and the regular file `a/b.txt` of mode 0444 applies to the empty tree
without error, and applying it again to the resulting tree fails with `EACCES`. -/
theorem second_pass_fails_on_read_only_file :
    (∀ e ∈ (readOnlyUntar []).entries, plainEntry e) ∧
    (unpackLayer readOnlyUntar [] "dest".toList emptyTree).1 = none ∧
    (unpackLayer readOnlyUntar [] "dest".toList
      (unpackLayer readOnlyUntar [] "dest".toList emptyTree).2).1
      = some GoError.EACCES := by
  decide

/-- C5, amended: for a layer whose entries are all directory or regular-file entries
(none with a whiteout base name), where the process is privileged or the permission
bits that each regular-file entry gives a file it creates grant the owner reading and
writing, and every tree `T`: if `unpackLayer` on `T` succeeds with tree `T1`, then
`unpackLayer` with the same layer on `T1` succeeds too, and the tree it yields is for
the same process and holds at every path what `T1` holds: the same kind and, for a
file, the same bytes and permission bits. -/
theorem unpackLayer_twice (untar : Bytes → TarStream) (tarBytes : Bytes)
    (outDir : GoString) (T T1 : FileSystem)
    (hplain : ∀ e ∈ (untar tarBytes).entries, plainEntry e)
    (hmode : ∀ e ∈ (untar tarBytes).entries, reopenable T.proc e)
    (h : unpackLayer untar tarBytes outDir T = (none, T1)) :
    ∃ T2, unpackLayer untar tarBytes outDir T1 = (none, T2) ∧ T2.proc = T1.proc ∧
      ∀ p, T2.get p = T1.get p := by
  unfold unpackLayer at h
  rcases h1 : applyEntries outDir (untar tarBytes).entries T with ⟨oe, S1⟩
  rw [h1] at h
  cases oe with
  | some err => simp at h
  | none =>
    simp only [Prod.mk.injEq] at h
    obtain ⟨herr, hS1⟩ := h
    subst hS1
    obtain ⟨hB, hproc⟩ := applyEntries_below outDir _ hplain T S1 h1
    obtain ⟨R1, hR1, hA1⟩ := ahead_applyEntries outDir _ hplain T S1 S1 hmode h1
      (ahead_start T S1 hproc hB)
    refine ⟨R1, ?_, hA1.1, ahead_end S1 R1 hA1⟩
    unfold unpackLayer
    rw [hR1, herr]

/-- C5, amended, at the sample layer that creates the directory `a` and the file
`a/b.txt` of mode 0644, applied to the empty tree with destination `dest`. -/
theorem unpackLayer_twice_witness :
    ∃ T2, unpackLayer sampleUntar [1] "dest".toList
        (unpackLayer sampleUntar [1] "dest".toList emptyTree).2 = (none, T2) ∧
      T2.proc = (unpackLayer sampleUntar [1] "dest".toList emptyTree).2.proc ∧
      ∀ p, T2.get p = (unpackLayer sampleUntar [1] "dest".toList emptyTree).2.get p :=
  unpackLayer_twice sampleUntar [1] "dest".toList emptyTree
    (unpackLayer sampleUntar [1] "dest".toList emptyTree).2 (by decide) (by decide) rfl

/-! ## What a whiteout entry removes -/

theorem lookupNode_filter (l : List (Path × Node)) (f : Path → Bool) (q : Path) :
    lookupNode (l.filter (fun kv => f kv.1)) q = if f q then lookupNode l q else none := by
  induction l with
  | nil => simp [lookupNode]
  | cons kv rest ih =>
    obtain ⟨k, v⟩ := kv
    by_cases hk : f k = true
    · rw [List.filter_cons_of_pos (by simpa using hk)]
      by_cases hq : k = q
      · subst hq
        simp [lookupNode, hk]
      · simp only [lookupNode, if_neg hq, ih]
    · rw [List.filter_cons_of_neg (by simpa using hk)]
      by_cases hq : k = q
      · subst hq
        simp only [ih, lookupNode, if_true]
        simp [hk]
      · simp only [lookupNode, if_neg hq, ih]

theorem get_without (fs : FileSystem) (gone : Path → Bool) (hroot : gone [] = false)
    (q : Path) : (fs.without gone).get q = if gone q then none else fs.get q := by
  unfold FileSystem.without FileSystem.get
  simp only
  rw [lookupNode_filter fs.entries (fun k => !gone k) q]
  by_cases hq : q = []
  · subst hq
    simp [hroot]
  · cases hg : gone q <;> simp [hq]

/-- The whiteout case of `unpackLayer` acts on the path computed from the literal
`out`, whatever the destination. Where that path is below the root and its name does
not end in a `.` or `..` element: if nothing can be reached there, the tree is
unchanged and no error is returned; a directory there is removed with everything
below it and a file there is removed, every other path staying as it was. -/
theorem applyEntry_whiteout (outDir : GoString) (e : TarEntry) (fs : FileSystem) (p : Path)
    (hname : HasPrefix (Base e.hdr.Name) ".wh.".toList = true)
    (hres : fs.resolve (whiteoutPath e.hdr.Name) = some p) (hp : p ≠ [])
    (hdot : endsWithDot (whiteoutPath e.hdr.Name) = false)
    (hfin1 : finalElement (whiteoutPath e.hdr.Name) ≠ ['.'])
    (hfin2 : finalElement (whiteoutPath e.hdr.Name) ≠ ['.', '.']) :
    ((∀ n, fs.lookup p ≠ Except.ok n) → applyEntry outDir e fs = (none, fs)) ∧
    (fs.lookup p = Except.ok Node.dir → (applyEntry outDir e fs).1 = none ∧
      ∀ q, (applyEntry outDir e fs).2.get q
        = if p.isPrefixOf q then none else fs.get q) ∧
    (∀ d perm who, fs.lookup p = Except.ok (Node.file d perm who) →
      (applyEntry outDir e fs).1 = none ∧
      ∀ q, (applyEntry outDir e fs).2.get q = if q = p then none else fs.get q) := by
  have hne : whiteoutPath e.hdr.Name ≠ [] := by
    intro h0
    rw [h0] at hres
    simp [FileSystem.resolve] at hres
  have hproot : p.isPrefixOf ([] : Path) = false := by
    cases p with
    | nil => exact absurd rfl hp
    | cons a t => rfl
  refine ⟨fun hfail => ?_, fun hl => ?_, fun d perm who hl => ?_⟩
  · cases hl : fs.lookup p with
    | ok n => exact absurd hl (hfail n)
    | error err => simp only [applyEntry, hname, if_true, Stat, hres, hl]
  · have hrun : applyEntry outDir e fs = (none, fs.without (fun k => p.isPrefixOf k)) := by
      simp only [applyEntry, hname, if_true, Stat, hres, hl, Node.IsDir, RemoveAll,
        if_neg hne, hdot, Bool.false_eq_true, if_false, if_neg hp, if_neg hfin1,
        if_neg hfin2]
    rw [hrun]
    exact ⟨rfl, get_without fs _ hproot⟩
  · have hrun : applyEntry outDir e fs = (none, fs.without (fun k => k = p)) := by
      simp only [applyEntry, hname, if_true, Stat, hres, hl, Node.IsDir, Remove,
        Bool.false_eq_true, if_false]
    rw [hrun]
    refine ⟨rfl, fun q => ?_⟩
    rw [get_without fs _ (by simpa using Ne.symm hp) q]
    by_cases hqp : q = p <;> simp [hqp]

end Splat
